import Mathlib

/-!
# Word count on a singly linked list (hw-intro/words)

A verification development for `word_count.c` and the tokenizers of `main.c`.

## Embedding

* A byte is a `Nat` (what `fgetc` returns before `EOF`); a stream is the list of its
  bytes, end-of-stream being the end of the list.
* A C string is the list of its bytes before the terminator, so no byte of a word is 0.
* A `WordCount *` list is a `List WordCount`: the `next` link of a node is the tail of
  the list, `NULL` is `[]`.  A pointer to one node of a list is its position.
* The `int` counters `num_words` and `total_words` are `Int` values reduced modulo 2^32
  after each addition (`wrap_int`).  The field `count` of a node is an `Int` that is
  taken not to reach `INT_MAX` (the specification assumes unbounded growth of counts).
* A store into the word buffer of `count_words` is inside the buffer when its index is
  below the capacity and below 2^31 (the index is an `int`); any other store is a
  fault, after which the run has no defined result (`none`).
* In the first model `malloc` is taken to succeed and the reference `wclist` to be
  present.  The allocation-aware model (`add_word_m`, `count_words_m`) drops both
  assumptions and is shown to agree with the first model when nothing fails.
* The driver `main` runs on a command line whose option arguments come first, as
  `getopt_long` of the C library leaves them.
-/

namespace Words

/-! ## Data model -/

/-- Modelled from the spec: the node type `WordCount` declared in `word_count.h`
(not among the sources); its fields are the ones `word_count.c` uses: `word`
(an owned C string), `count` (printed with `%i`, an `int`) and `next`, which here is
the tail of the list. -/
structure WordCount where
  word : List Nat
  count : Int
deriving DecidableEq, Repr

/-- The bytes of a list of characters, used to write words and streams readably. -/
def bytes (cs : List Char) : List Nat := cs.map Char.toNat

/-! ## `word_count.c` -/

/-- Function `strcmp`: compares two C strings byte by byte as unsigned bytes; the result is
negative, zero or positive.  The end of a string is its terminator, which compares
below every byte of a word. -/
def strcmp : List Nat → List Nat → Int
  | [], [] => 0
  | [], _ :: _ => -1
  | _ :: _, [] => 1
  | a :: s1, b :: s2 => if a < b then -1 else if b < a then 1 else strcmp s1 s2

/-- Function `new_string`: a fresh copy of `str` (`malloc` of `strlen(str) + 1` bytes, taken
to succeed, then `strcpy`). -/
def new_string (str : List Nat) : List Nat := str

/-- Function `init_words`: sets `*wclist` to `NULL` and returns 0. -/
def init_words : Int × List WordCount := (0, [])

/-- The `while` loop of `len_words`: `len++` for every node until `NULL`. -/
def len_words_loop : List WordCount → Nat → Nat
  | [], len => len
  | _ :: next, len => len_words_loop next (len + 1)

/-- Function `len_words`: the number of nodes from `wchead`. -/
def len_words (wchead : List WordCount) : Nat := len_words_loop wchead 0

/-- Function `find_word`: walks from `wchead` while the node is not `NULL` and
`strcmp(node->word, word) != 0`, and returns the node reached: `some i` is the node
at position `i`, `none` is `NULL`. -/
def find_word : List WordCount → List Nat → Option Nat
  | [], _ => none
  | node :: next, word =>
    if strcmp node.word word != 0 then (find_word next word).map (· + 1) else some 0

/-- Function `create_word`: a pointer to a fresh node (`malloc` taken to succeed, so never
`NULL`) that holds `new_string(s)` and the count 1; its `next` link is the one the
caller sets when it links the node into the list. -/
def create_word (s : List Nat) : Option WordCount :=
  some { word := new_string s, count := 1 }

/-- Function `wordcount_less`: the default comparator on two nodes (both not `NULL`, as the
source asserts).  `same` is the outcome of the pointer test `wc1 == wc2`. -/
def wordcount_less (same : Bool) (wc1 wc2 : WordCount) : Bool :=
  if same then false
  else if wc1.count < wc2.count then true
  else if wc1.count = wc2.count ∧ strcmp wc1.word wc2.word < 0 then true
  else false

/-- Function `add_word`: returns the return code and the list then held by `*wclist`.
When `find_word` returns a node, its count is incremented in place; otherwise a
node made by `create_word` is linked in front of the list. -/
def add_word (wclist : List WordCount) (word : List Nat) : Int × List WordCount :=
  match find_word wclist word with
  | some i => (0, wclist.modify (fun node => { node with count := node.count + 1 }) i)
  | none =>
    match create_word word with
    | none => (1, wclist)
    | some new_word => (0, new_word :: wclist)

/-- The rendering of an `int` by `%i`: decimal digits, with a leading `-` when negative. -/
def print_int (n : Int) : List Nat := (toString n).toList.map Char.toNat

/-- Function `fprint_words`: the bytes written to `ofile`, one `"%i\t%s\n"` per node from
`wchead`. -/
def fprint_words : List WordCount → List Nat
  | [] => []
  | wc :: next => print_int wc.count ++ [9] ++ wc.word ++ [10] ++ fprint_words next

/-- Function `swap_adjacent`: `node1` is followed by `node2`, which is followed by `rest`;
afterwards `node2` is followed by `node1`, which is followed by `rest`, and the front
node `node2` is returned. -/
def swap_adjacent (node1 node2 : WordCount) (rest : List WordCount) : List WordCount :=
  node2 :: node1 :: rest

/-- The inner `for` loop of `wordcount_sort`.  `h` points at the link that holds the
list given here; `n` is the number of iterations left, `num_words - i - 1 - j`.
Returns `has_swapped` and the list held by the link afterwards; `none` is the
dereference of a `NULL` node.  After the test and the swap the link `*h` holds
`held`, and `h = &((*h)->next)` moves on to the link after its front node. -/
def sort_scan (less : WordCount → WordCount → Bool) :
    Nat → Bool → List WordCount → Option (Bool × List WordCount)
  | 0, has_swapped, l => some (has_swapped, l)
  | _ + 1, _, [] => none
  | _ + 1, _, [_] => none
  | n + 1, has_swapped, node1 :: node2 :: rest =>
    let swap := !less node1 node2
    let held := if swap then swap_adjacent node1 node2 rest else node1 :: node2 :: rest
    match held with
    | [] => none
    | front :: link =>
      (sort_scan less n (if swap then true else has_swapped) link).map
        (fun r => (r.1, front :: r.2))

/-- The outer `for` loop of `wordcount_sort`, counted down: `m` is `num_words - i`,
so the loop ends at `m = 0` and the inner loop runs `num_words - i - 1 = m - 1` times. -/
def sort_passes (less : WordCount → WordCount → Bool) :
    Nat → List WordCount → Option (List WordCount)
  | 0, l => some l
  | m + 1, l =>
    match sort_scan less m false l with
    | none => none
    | some (has_swapped, l1) => if !has_swapped then some l1 else sort_passes less m l1

/-- Function `wordcount_sort`: the list held by `*wclist` afterwards; `none` is a fault. -/
def wordcount_sort (wclist : List WordCount) (less : WordCount → WordCount → Bool) :
    Option (List WordCount) :=
  sort_passes less (len_words wclist) wclist

/-! ## `main.c`: the tokenizers -/

/-- Macro `SPACE`, the character `' '`. -/
def SPACE : Nat := 32

/-- Macro `NEW_LINE`, the character `'\n'`. -/
def NEW_LINE : Nat := 10

/-- Macro `STRING_TERMINATOR`, the character `'\0'`. -/
def STRING_TERMINATOR : Nat := 0

/-- Function `is_word_character`: `c` is neither `SPACE` nor `NEW_LINE`. -/
def is_word_character (c : Nat) : Bool := (c != SPACE) && (c != NEW_LINE)

/-- Function `is_word_terminator`: `c` is `SPACE` or `NEW_LINE`. -/
def is_word_terminator (c : Nat) : Bool := (c == SPACE) || (c == NEW_LINE)

/-- The value that 32-bit `int` arithmetic gives for the exact result `n`: the
representative of `n` modulo 2^32 between -2^31 and 2^31 - 1.  (Signed overflow is
undefined in C; the model takes the two's complement result.) -/
def wrap_int (n : Int) : Int := (n + 2147483648) % 4294967296 - 2147483648

/-- The `while` loop of `num_words`: reads the stream byte by byte until `EOF`;
returns the locals `num_words` (an `int`) and `prev_c` at loop exit. -/
def num_words_loop : List Nat → Nat → Int → Int × Nat
  | [], prev_c, num_words => (num_words, prev_c)
  | c :: rest, prev_c, num_words =>
    num_words_loop rest c
      (if is_word_terminator c && is_word_character prev_c then wrap_int (num_words + 1)
        else num_words)

/-- Function `num_words`: the total number of words of the stream, counted in an `int`. -/
def num_words (infile : List Nat) : Int :=
  let r := num_words_loop infile SPACE 0
  if is_word_character r.2 then wrap_int (r.1 + 1) else r.1

/-- The locals of `count_words` together with the list held by `*wclist`.
`buffer` lists the bytes at indices `0 .. buffer_write_idx - 1` of the word buffer,
so `buffer_write_idx` is its length and `buffer_write_idx = 0` empties it.
`stores` records every store into the word buffer as (index, capacity at that time).
`fault` is set by a store that is not inside the buffer; the run stops there. -/
structure Tokenizer where
  wclist : List WordCount
  buffer_size : Nat
  buffer : List Nat
  prev_c : Nat
  stores : List (Nat × Nat)
  fault : Bool := false
deriving DecidableEq, Repr

/-- The C string that starts at `buffer` once `STRING_TERMINATOR` is stored at
`buffer_write_idx`: the bytes stored so far, up to the first zero byte among them. -/
def c_string (buffer : List Nat) : List Nat :=
  buffer.takeWhile (fun b => b != STRING_TERMINATOR)

/-- Whether the store `buffer[buffer_write_idx] = ...` is inside the buffer: the index is
below the capacity `buffer_size`, and below 2^31.  The index is an `int`: once 2^31 bytes
are stored its increment has overflowed, and the store that follows is not inside the
buffer. -/
def store_in_bounds (t : Tokenizer) : Bool :=
  decide (t.buffer.length < t.buffer_size) && decide (t.buffer.length < 2147483648)

/-- The store `buffer[buffer_write_idx++] = c` of a word character: a fault when it is
not inside the buffer. -/
def store_char (t : Tokenizer) (c : Nat) : Tokenizer :=
  if store_in_bounds t then
    { t with
      stores := t.stores ++ [(t.buffer.length, t.buffer_size)]
      buffer := t.buffer ++ [c] }
  else
    { t with stores := t.stores ++ [(t.buffer.length, t.buffer_size)], fault := true }

/-- The store `buffer[buffer_write_idx] = STRING_TERMINATOR`, a fault when it is not
inside the buffer, followed by `add_word(wclist, buffer)` and `buffer_write_idx = 0`;
the return code of `add_word` is dropped, as in the source. -/
def emit_word (t : Tokenizer) : Tokenizer :=
  if store_in_bounds t then
    { t with
      stores := t.stores ++ [(t.buffer.length, t.buffer_size)]
      wclist := (add_word t.wclist (c_string t.buffer)).2
      buffer := [] }
  else
    { t with stores := t.stores ++ [(t.buffer.length, t.buffer_size)], fault := true }

/-- One iteration of the `while` loop of `count_words` on the byte `c`: when
`buffer_write_idx >= buffer_size`, double `buffer_size` and move the bytes to a block
of that size from `allocate_buffer` (taken to succeed); store a word character at
`buffer_write_idx` and advance it; end the word on a terminator that follows a word
character; remember `c` in `prev_c`.  Nothing more happens after a fault. -/
def count_words_step (t : Tokenizer) (c : Nat) : Tokenizer :=
  if t.fault then t
  else
    let t1 := if t.buffer.length ≥ t.buffer_size then
        { t with buffer_size := t.buffer_size * 2 } else t
    let t2 := if is_word_character c then store_char t1 c else t1
    if t2.fault then t2
    else
      let t3 := if is_word_terminator c && is_word_character t.prev_c then emit_word t2 else t2
      if t3.fault then t3 else { t3 with prev_c := c }

/-- The `while` loop of `count_words` over the bytes read until `EOF`. -/
def count_words_loop : List Nat → Tokenizer → Tokenizer
  | [], t => t
  | c :: rest, t => count_words_loop rest (count_words_step t c)

/-- The code of `count_words` after the loop: the end of the last word when the stream
ends on a word character. -/
def count_words_finish (t : Tokenizer) : Tokenizer :=
  if t.fault then t
  else if is_word_character t.prev_c then emit_word t else t

/-- The run of `count_words` on a present stream: the locals after the loop and the
final word, starting from a 16-byte buffer. -/
def count_words_run (wclist : List WordCount) (infile : List Nat) : Tokenizer :=
  count_words_finish (count_words_loop infile
    { wclist := wclist, buffer_size := 16, buffer := [], prev_c := SPACE, stores := [] })

/-- Function `count_words`: the return code and the list then held by `*wclist`; `infile` is
`none` for a `NULL` stream; the result `none` is a fault (a store outside the word
buffer). -/
def count_words (wclist : List WordCount) (infile : Option (List Nat)) :
    Option (Int × List WordCount) :=
  match infile with
  | none => some (1, wclist)
  | some s =>
    if (count_words_run wclist s).fault then none
    else some (0, (count_words_run wclist s).wclist)

/-! ## Reference definitions of the specification -/

/-- The reference splitter: the non-empty pieces of the stream split on space and
newline, that is its maximal runs of other bytes, in order. -/
def tokens (s : List Nat) : List (List Nat) :=
  (s.splitOnP (fun c => c == 32 || c == 10)).filter (fun t => !t.isEmpty)

/-- The bytes of the stream after its last space or newline (all of them when it has
none): the word that the end of the stream leaves unterminated, if any. -/
def last_run (s : List Nat) : List Nat :=
  s.foldl (fun run c => if c == 32 || c == 10 then [] else run ++ [c]) []

/-- The count recorded for `w` in a ledger, 0 if `w` is absent. -/
def count_of (wclist : List WordCount) (w : List Nat) : Int :=
  match find_word wclist w with
  | some i => match wclist.get? i with
    | some node => node.count
    | none => 0
  | none => 0

/-- Applies `add_word` to each word of `ws` in order. -/
def add_words (wclist : List WordCount) (ws : List (List Nat)) : List WordCount :=
  ws.foldl (fun l w => (add_word l w).2) wclist

/-- A strict weak ordering on entries: irreflexive, transitive, and with a transitive
incomparability relation. -/
def StrictWeakOrdering (less : WordCount → WordCount → Bool) : Prop :=
  (∀ a, less a a = false)
  ∧ (∀ a b c, less a b = true → less b c = true → less a c = true)
  ∧ (∀ a b c, less a b = false → less b a = false → less b c = false → less c b = false →
      less a c = false ∧ less c a = false)

/-- A comparator that orders entries by count alone, so that entries with equal counts
and different words tie. -/
def count_less (wc1 wc2 : WordCount) : Bool := decide (wc1.count < wc2.count)

/-- The ledger after `n` successive calls `add_word(wclist, word)`. -/
def add_word_n (wclist : List WordCount) (word : List Nat) : Nat → List WordCount
  | 0 => wclist
  | n + 1 => (add_word (add_word_n wclist word n) word).2

/-- The ledgers reachable from the empty ledger made by `init_words` through calls of
`add_word`, `count_words` (on a present or absent stream) and `wordcount_sort` (with
any comparator). -/
inductive Reachable : List WordCount → Prop
  | init : Reachable init_words.2
  | add_word (l : List WordCount) (word : List Nat) :
      Reachable l → Reachable (add_word l word).2
  | count_words (l : List WordCount) (infile : Option (List Nat)) (code : Int)
      (l1 : List WordCount) :
      Reachable l → count_words l infile = some (code, l1) → Reachable l1
  | wordcount_sort (l : List WordCount) (less : WordCount → WordCount → Bool)
      (l1 : List WordCount) :
      Reachable l → wordcount_sort l less = some l1 → Reachable l1

/-- The frequency report of `main` for one stream: `count_words` from the ledger made by
`init_words`, then `wordcount_sort` with `wordcount_less` (the two nodes compared are
always different nodes), then `fprint_words`; the bytes written by `fprint_words`. -/
def frequency_report (s : List Nat) : Option (List Nat) :=
  match count_words init_words.2 (some s) with
  | none => none
  | some r => (wordcount_sort r.2 (wordcount_less false)).map fprint_words

/-- The report line of an entry: `<count><TAB><word><newline>`. -/
def report_line (e : WordCount) : List Nat :=
  print_int e.count ++ [9] ++ e.word ++ [10]

/-- The order of the report: ascending count, then ascending byte-wise lexicographic
order of the word. -/
def report_order (a b : WordCount) : Prop :=
  a.count < b.count ∨ (a.count = b.count ∧ List.Lex (fun x y : Nat => x < y) a.word b.word)

/-! ## Absent references and failing allocations

The definitions above take `malloc` to succeed and the reference `wclist` to be present.
The ones below drop both assumptions: a pointer is an `Option` (`none` is `NULL`), the
outcome of each `malloc` is an input, and the result `none` of a function is a fault (a
load or store through `NULL`). -/

/-- A node whose `word` pointer may be `NULL`. -/
structure Node where
  word : Option (List Nat)
  count : Int
deriving DecidableEq, Repr

/-- The node of the allocation-aware model for an entry whose word is present. -/
def Node.of (e : WordCount) : Node := { word := some e.word, count := e.count }

/-- Function `new_string`, with the outcome `ok` of its `malloc`: `NULL` when it failed,
the copy of `str` otherwise. -/
def new_string_m (ok : Bool) (str : List Nat) : Option (List Nat) :=
  if ok then some str else none

/-- Function `create_word`, with the outcomes of the `malloc` of the node and of the one
in `new_string`.  The store `word->word = new_string(s)` goes through the node pointer
before any test of it: a fault when the node is `NULL`.  Otherwise the node pointer
(never `NULL`) is returned. -/
def create_word_m (ok_node ok_str : Bool) (s : List Nat) : Option (Option Node) :=
  if ok_node then some (some { word := new_string_m ok_str s, count := 1 }) else none

/-- Function `find_word` on nodes whose word may be `NULL`: `strcmp` on a `NULL` word is a
fault; otherwise as `find_word`. -/
def find_word_m : List Node → List Nat → Option (Option Nat)
  | [], _ => some none
  | node :: next, word =>
    match node.word with
    | none => none
    | some w =>
      if strcmp w word != 0 then (find_word_m next word).map (Option.map (· + 1))
      else some (some 0)

/-- Function `add_word` through a reference `wclist` that may be `NULL`, with the outcomes
of the two allocations of `create_word`.  Reading `*wclist` through `NULL` is a fault.
Returns the return code, the list then held by `*wclist`, and the number of allocations
requested. -/
def add_word_m (ok_node ok_str : Bool) (wclist : Option (List Node)) (word : List Nat) :
    Option (Int × List Node × Nat) :=
  match wclist with
  | none => none
  | some l =>
    match find_word_m l word with
    | none => none
    | some (some i) =>
      some (0, l.modify (fun node => { node with count := node.count + 1 }) i, 0)
    | some none =>
      match create_word_m ok_node ok_str word with
      | none => none
      | some none => some (1, l, 2)
      | some (some new_word) => some (0, new_word :: l, 2)

/-- The locals of `count_words` in the allocation-aware model: `wclist` is the reference
(`none` is `NULL`) with the list it holds, `buffer` is the buffer pointer (`none` is
`NULL`) with the bytes below `buffer_write_idx`, and `allocs` counts the allocations
requested so far. -/
structure Machine where
  wclist : Option (List Node)
  buffer_size : Nat
  buffer : Option (List Nat)
  prev_c : Nat
  allocs : Nat
deriving DecidableEq, Repr

/-- The index `buffer_write_idx`: the number of bytes stored since it was last 0. -/
def Machine.buffer_write_idx (t : Machine) : Nat :=
  match t.buffer with
  | none => 0
  | some b => b.length

/-- Whether a store at `buffer_write_idx` is inside a buffer that holds the bytes `b`
below that index: as `store_in_bounds`. -/
def store_in_bounds_m (t : Machine) (b : List Nat) : Bool :=
  decide (b.length < t.buffer_size) && decide (b.length < 2147483648)

/-- The end of a word in the allocation-aware model: the store of the terminator (a
fault through a `NULL` buffer or outside the buffer), the call of `add_word` (whose
fault is one of `count_words`, and whose return code is dropped), and
`buffer_write_idx = 0`.  `alloc k` is the outcome of the allocation request number `k`. -/
def emit_word_m (alloc : Nat → Bool) (t : Machine) : Option Machine :=
  match t.buffer with
  | none => none
  | some b =>
    if store_in_bounds_m t b then
      match add_word_m (alloc t.allocs) (alloc (t.allocs + 1)) t.wclist (c_string b) with
      | none => none
      | some (_, l, n) =>
        some { t with wclist := some l, buffer := some [], allocs := t.allocs + n }
    else none

/-- The growth of the buffer in the allocation-aware model: `memcpy` into a `NULL` block,
or from one, is a fault. -/
def grow_buffer_m (alloc : Nat → Bool) (t : Machine) : Option Machine :=
  if t.buffer_write_idx ≥ t.buffer_size then
    match alloc t.allocs, t.buffer with
    | true, some b =>
      some { t with buffer_size := t.buffer_size * 2, buffer := some b, allocs := t.allocs + 1 }
    | _, _ => none
  else some t

/-- One iteration of the `while` loop of `count_words` in the allocation-aware model. -/
def count_words_step_m (alloc : Nat → Bool) (t : Machine) (c : Nat) : Option Machine :=
  match grow_buffer_m alloc t with
  | none => none
  | some t1 =>
    let stored : Option Machine :=
      if is_word_character c then
        match t1.buffer with
        | none => none
        | some b =>
          if store_in_bounds_m t1 b then some { t1 with buffer := some (b ++ [c]) } else none
      else some t1
    match stored with
    | none => none
    | some t2 =>
      let ended : Option Machine :=
        if is_word_terminator c && is_word_character t.prev_c then emit_word_m alloc t2
        else some t2
      ended.map (fun t3 => { t3 with prev_c := c })

/-- The `while` loop of `count_words` in the allocation-aware model. -/
def count_words_loop_m (alloc : Nat → Bool) : List Nat → Machine → Option Machine
  | [], t => some t
  | c :: rest, t =>
    match count_words_step_m alloc t c with
    | none => none
    | some t1 => count_words_loop_m alloc rest t1

/-- Function `count_words` in the allocation-aware model: `wclist` and `infile` may be
`NULL`, `alloc k` is the outcome of the allocation request number `k` (request 0 is the
first `allocate_buffer`).  Returns the return code and the reference with the list it
then holds; `none` is a fault. -/
def count_words_m (alloc : Nat → Bool) (wclist : Option (List Node))
    (infile : Option (List Nat)) : Option (Int × Option (List Node)) :=
  match infile with
  | none => some (1, wclist)
  | some s =>
    match count_words_loop_m alloc s
        { wclist := wclist, buffer_size := 16,
          buffer := if alloc 0 then some [] else none, prev_c := SPACE, allocs := 1 } with
    | none => none
    | some t =>
      if is_word_character t.prev_c then
        (emit_word_m alloc t).map (fun t1 => (0, t1.wclist))
      else some (0, t.wclist)

/-! ## `main.c`: the driver -/

/-- The bytes of a text. -/
def ascii (s : String) : List Nat := s.toList.map Char.toNat

/-- An option argument of the command line, in one of the six spellings that `main`
declares for `getopt_long`. -/
inductive Flag where
  | count_short
  | count_long
  | frequency_short
  | frequency_long
  | help_short
  | help_long
deriving DecidableEq, Repr

/-- The spelling of an option argument in `argv`. -/
def Flag.spelling : Flag → List Nat
  | Flag.count_short => ascii "-c"
  | Flag.count_long => ascii "--count"
  | Flag.frequency_short => ascii "-f"
  | Flag.frequency_long => ascii "--frequency"
  | Flag.help_short => ascii "-h"
  | Flag.help_long => ascii "--help"

/-- The value `getopt_long` returns for an option argument: the character `c`, `f` or
`h`. -/
def Flag.code : Flag → Nat
  | Flag.count_short => 99
  | Flag.count_long => 99
  | Flag.frequency_short => 102
  | Flag.frequency_long => 102
  | Flag.help_short => 104
  | Flag.help_long => 104

/-- A command line: the program name, its option arguments and its positional arguments
(paths). -/
structure CommandLine where
  program : List Nat
  flags : List Flag
  files : List (List Nat)
deriving DecidableEq, Repr

/-- The array `argv` once `getopt_long` has returned -1.  That function belongs to the C
library, not to the sources; as documented there it moves the option arguments in front
of the positional ones, so `argv` holds the program name, then the option arguments,
then the positional arguments in their order. -/
def CommandLine.argv (cl : CommandLine) : List (List Nat) :=
  cl.program :: (cl.flags.map Flag.spelling ++ cl.files)

/-- The number `argc` of elements of `argv`. -/
def CommandLine.argc (cl : CommandLine) : Nat := cl.argv.length

/-- The variable `optind` of the C library once `getopt_long` has returned -1: the index
in `argv` of the first positional argument. -/
def CommandLine.optind (cl : CommandLine) : Nat := 1 + cl.flags.length

/-- The text printed by `display_help`. -/
def help_text : List Nat :=
  ascii "Flags:\n"
  ++ ascii "--count (-c): Count the total amount of words in the file, or STDIN if a file is not specified. This is default behavior if no flag is specified.\n"
  ++ ascii "--frequency (-f): Count the frequency of each word in the file, or STDIN if a file is not specified.\n"
  ++ ascii "--help (-h): Displays this help message.\n"

/-- The header line printed before the frequency report. -/
def frequency_header : List Nat := ascii "The frequencies of each word are: \n"

/-- The line printed in count mode. -/
def total_line (total_words : Int) : List Nat :=
  ascii "The total number of words is: " ++ print_int total_words ++ ascii "\n"

/-- The diagnostic printed for a path that `fopen` cannot open. -/
def cannot_open_line (path : List Nat) : List Nat :=
  ascii "file: '" ++ path ++ ascii "' cannot be opened!\n"

/-- Function `display_help`: prints the help text after what is already on the standard
output and returns 0. -/
def display_help (stdout : List Nat) : Int × List Nat := (0, stdout ++ help_text)

/-- The `while` loop of `main` over the values returned by `getopt_long`: the modes
`(count_mode, freq_mode)` after the loop, or `none` when the option `h` makes `main`
return `display_help()`. -/
def set_flags : List Nat → Bool × Bool → Option (Bool × Bool)
  | [], modes => some modes
  | i :: rest, modes =>
    if i = 99 then set_flags rest (true, false)
    else if i = 102 then set_flags rest (false, true)
    else if i = 104 then none
    else set_flags rest modes

/-- What a run of `main` leaves behind: its return value, the bytes on the standard
output, the paths passed to `fopen` in order, and the global `word_counts`. -/
structure Run where
  status : Int
  stdout : List Nat
  opened : List (List Nat)
  word_counts : List WordCount
deriving DecidableEq, Repr

/-- The variables that the input part of `main` changes; `total_words` is an `int`. -/
structure Inputs where
  total_words : Int
  word_counts : List WordCount
  stdout : List Nat
  opened : List (List Nat)
deriving DecidableEq, Repr

/-- The `for` loop of `main` over `argv[i]`, given the elements of `argv` from index `i`
on.  `fopen path` is the stream of the file, `none` when it cannot be opened.  The
result `none` is a fault of `count_words`. -/
def file_loop (fopen : List Nat → Option (List Nat)) (count_mode : Bool) :
    List (List Nat) → Inputs → Option Inputs
  | [], st => some st
  | path :: rest, st =>
    let st1 := { st with opened := st.opened ++ [path] }
    match fopen path with
    | none => file_loop fopen count_mode rest
        { st1 with stdout := st1.stdout ++ cannot_open_line path }
    | some f =>
      if count_mode then
        file_loop fopen count_mode rest
          { st1 with total_words := wrap_int (st1.total_words + num_words f) }
      else
        match count_words st1.word_counts (some f) with
        | none => none
        | some r =>
          let st2 := { st1 with word_counts := r.2 }
          file_loop fopen count_mode rest
            (if r.1 = 1 then { st2 with stdout := st2.stdout ++ ascii "count_words: failed\n" }
              else st2)

/-- Function `main`: the run of the program on a command line, with the files that
`fopen` finds and the bytes of the standard input; `none` is a fault. -/
def main (cl : CommandLine) (fopen : List Nat → Option (List Nat)) (stdin : List Nat) :
    Option Run :=
  match set_flags (cl.flags.map Flag.code) (true, false) with
  | none =>
    some { status := (display_help []).1, stdout := (display_help []).2, opened := [],
           word_counts := [] }
  | some (count_mode, freq_mode) =>
    if !count_mode && !freq_mode then
      some { status := (display_help (ascii "Please specify a mode.\n")).1,
             stdout := (display_help (ascii "Please specify a mode.\n")).2, opened := [],
             word_counts := [] }
    else
      let st0 : Inputs :=
        { total_words := 0, word_counts := init_words.2, stdout := [], opened := [] }
      let inputs : Option Inputs :=
        if ((cl.argc : Int) - (cl.optind : Int)) < 1 then
          some { st0 with total_words := num_words stdin }
        else file_loop fopen count_mode (cl.argv.drop 2) st0
      match inputs with
      | none => none
      | some st =>
        if count_mode then
          some { status := 0, stdout := st.stdout ++ total_line st.total_words,
                 opened := st.opened, word_counts := st.word_counts }
        else
          match wordcount_sort st.word_counts (wordcount_less false) with
          | none => none
          | some l =>
            some { status := 0, stdout := st.stdout ++ frequency_header ++ fprint_words l,
                   opened := st.opened, word_counts := l }

/-- The locals of the allocation-aware model that stand for the locals `t` of the first
model, after `n` allocation requests: every pointer is present. -/
def Machine.of (t : Tokenizer) (n : Nat) : Machine :=
  { wclist := some (t.wclist.map Node.of), buffer_size := t.buffer_size,
    buffer := some t.buffer, prev_c := t.prev_c, allocs := n }

/-! ## Basic facts about the list operations -/

theorem strcmp_eq_zero_iff (a b : List Nat) : strcmp a b = 0 ↔ a = b := by
  induction a generalizing b with
  | nil => cases b <;> simp [strcmp]
  | cons x a ih =>
    cases b with
    | nil => simp [strcmp]
    | cons y b =>
      simp only [strcmp]
      by_cases h1 : x < y
      · simp [h1]; omega
      · by_cases h2 : y < x
        · simp [h1, h2]; omega
        · have hxy : x = y := by omega
          simp [h1, h2, ih, hxy]

theorem strcmp_neg_iff (a b : List Nat) :
    strcmp a b < 0 ↔ List.Lex (fun x y : Nat => x < y) a b := by
  induction a generalizing b with
  | nil =>
    cases b with
    | nil =>
      simp only [strcmp]
      constructor
      · intro h; omega
      · intro h; cases h
    | cons y b =>
      simp only [strcmp]
      constructor
      · intro _; exact List.Lex.nil
      · intro _; omega
  | cons x a ih =>
    cases b with
    | nil =>
      simp only [strcmp]
      constructor
      · intro h; omega
      · intro h; cases h
    | cons y b =>
      simp only [strcmp]
      by_cases h1 : x < y
      · simp only [h1, if_true]
        constructor
        · intro _; exact List.Lex.rel h1
        · intro _; omega
      · by_cases h2 : y < x
        · simp only [h1, h2, if_false, if_true]
          constructor
          · intro h; omega
          · intro h
            cases h with
            | cons h => omega
            | rel h => exact absurd h h1
        · simp only [h1, h2, if_false, ih]
          have hxy : x = y := by omega
          subst hxy
          constructor
          · intro h; exact List.Lex.cons h
          · intro h
            cases h with
            | cons h => exact h
            | rel h => exact absurd h h1

theorem len_words_loop_eq (l : List WordCount) (len : Nat) :
    len_words_loop l len = len + l.length := by
  induction l generalizing len with
  | nil => simp [len_words_loop]
  | cons x l ih => simp [len_words_loop, ih]; omega

theorem len_words_eq_length (l : List WordCount) : len_words l = l.length := by
  simp [len_words, len_words_loop_eq]

theorem find_word_eq_none_iff (l : List WordCount) (w : List Nat) :
    find_word l w = none ↔ ∀ e ∈ l, e.word ≠ w := by
  induction l with
  | nil => simp [find_word]
  | cons x l ih =>
    by_cases h : x.word = w
    · simp [find_word, strcmp_eq_zero_iff, h]
    · simp [find_word, strcmp_eq_zero_iff, h, ih]

theorem find_word_split (pre : List WordCount) (e : WordCount) (post : List WordCount)
    (w : List Nat) (hpre : ∀ x ∈ pre, x.word ≠ w) (he : e.word = w) :
    find_word (pre ++ e :: post) w = some pre.length := by
  induction pre with
  | nil => simp [find_word, strcmp_eq_zero_iff, he]
  | cons x pre ih =>
    have hx : x.word ≠ w := hpre x (List.mem_cons_self _ _)
    have := ih (fun y hy => hpre y (List.mem_cons_of_mem _ hy))
    simp [find_word, strcmp_eq_zero_iff, hx, this]

theorem exists_first_match (l : List WordCount) (w : List Nat)
    (h : ∃ e ∈ l, e.word = w) :
    ∃ pre e post, l = pre ++ e :: post ∧ (∀ x ∈ pre, x.word ≠ w) ∧ e.word = w := by
  induction l with
  | nil => simp at h
  | cons x l ih =>
    by_cases hx : x.word = w
    · exact ⟨[], x, l, rfl, by simp, hx⟩
    · have h1 : ∃ e ∈ l, e.word = w := by
        obtain ⟨e, he, hew⟩ := h
        rcases List.mem_cons.1 he with rfl | he
        · exact absurd hew hx
        · exact ⟨e, he, hew⟩
      obtain ⟨pre, e, post, hl, hpre, he⟩ := ih h1
      refine ⟨x :: pre, e, post, by simp [hl], ?_, he⟩
      intro y hy
      rcases List.mem_cons.1 hy with rfl | hy
      · exact hx
      · exact hpre y hy

theorem add_word_found (pre : List WordCount) (e : WordCount) (post : List WordCount)
    (w : List Nat) (hpre : ∀ x ∈ pre, x.word ≠ w) (he : e.word = w) :
    add_word (pre ++ e :: post) w
      = (0, pre ++ { word := e.word, count := e.count + 1 } :: post) := by
  have hm : ∀ (f : WordCount → WordCount) (p : List WordCount),
      (p ++ e :: post).modify f p.length = p ++ f e :: post := by
    intro f p
    induction p with
    | nil => simp
    | cons x p ih => simp [ih]
  simp [add_word, find_word_split pre e post w hpre he, hm]

theorem add_word_absent (l : List WordCount) (w : List Nat) (h : ∀ x ∈ l, x.word ≠ w) :
    add_word l w = (0, { word := w, count := 1 } :: l) := by
  simp [add_word, (find_word_eq_none_iff l w).2 h, create_word, new_string]

/-! ## The sort: one scan and the passes -/

theorem sort_scan_succ (less : WordCount → WordCount → Bool) (n : Nat) (sw : Bool)
    (node1 node2 : WordCount) (rest : List WordCount) :
    sort_scan less (n + 1) sw (node1 :: node2 :: rest)
      = if less node1 node2 = true then
          (sort_scan less n sw (node2 :: rest)).map (fun r => (r.1, node1 :: r.2))
        else (sort_scan less n true (node1 :: rest)).map (fun r => (r.1, node2 :: r.2)) := by
  by_cases hc : less node1 node2 = true <;> simp [sort_scan, swap_adjacent, hc]

theorem sort_scan_perm (less : WordCount → WordCount → Bool) (n : Nat) :
    ∀ (sw : Bool) (l : List WordCount), n < l.length →
      ∃ sw1 l1, sort_scan less n sw l = some (sw1, l1) ∧ l1.Perm l := by
  induction n with
  | zero => intro sw l _; exact ⟨sw, l, by simp [sort_scan], List.Perm.refl l⟩
  | succ n ih =>
    intro sw l hl
    match l, hl with
    | [_], hl => simp at hl
    | node1 :: node2 :: rest, hl =>
      have hlen : n < (node1 :: rest).length := by simp at hl ⊢; omega
      have hlen2 : n < (node2 :: rest).length := by simp at hl ⊢; omega
      by_cases hc : less node1 node2 = true
      · obtain ⟨sw1, l1, h1, hp⟩ := ih sw (node2 :: rest) hlen2
        exact ⟨sw1, node1 :: l1, by simp [sort_scan_succ, hc, h1], hp.cons node1⟩
      · obtain ⟨sw1, l1, h1, hp⟩ := ih true (node1 :: rest) hlen
        refine ⟨sw1, node2 :: l1, by simp [sort_scan_succ, hc, h1], ?_⟩
        exact (hp.cons node2).trans (List.Perm.swap node1 node2 rest)

theorem sort_passes_perm (less : WordCount → WordCount → Bool) (m : Nat) :
    ∀ l : List WordCount, m ≤ l.length →
      ∃ l1, sort_passes less m l = some l1 ∧ l1.Perm l := by
  induction m with
  | zero => intro l _; exact ⟨l, by simp [sort_passes], List.Perm.refl l⟩
  | succ m ih =>
    intro l hl
    obtain ⟨sw1, l1, h1, hp⟩ := sort_scan_perm less m false l (by omega)
    cases sw1 with
    | false => exact ⟨l1, by simp [sort_passes, h1], hp⟩
    | true =>
      obtain ⟨l2, h2, hp2⟩ := ih l1 (by rw [hp.length_eq]; omega)
      exact ⟨l2, by simp [sort_passes, h1, h2], hp2.trans hp⟩

theorem sort_scan_append (less : WordCount → WordCount → Bool) (q : List WordCount)
    (n : Nat) : ∀ (sw : Bool) (p : List WordCount), n < p.length →
      sort_scan less n sw (p ++ q)
        = (sort_scan less n sw p).map (fun r => (r.1, r.2 ++ q)) := by
  induction n with
  | zero => intro sw p _; simp [sort_scan]
  | succ n ih =>
    intro sw p hp
    match p, hp with
    | [_], hp => simp at hp
    | node1 :: node2 :: rest, hp =>
      have hlen : n < (node1 :: rest).length := by simp at hp ⊢; omega
      have hlen2 : n < (node2 :: rest).length := by simp at hp ⊢; omega
      have e1 := ih true (node1 :: rest) hlen
      have e2 := ih sw (node2 :: rest) hlen2
      simp only [List.cons_append] at e1 e2 ⊢
      by_cases hc : less node1 node2 = true
      · simp only [sort_scan_succ, hc, e2, if_true]
        cases sort_scan less n sw (node2 :: rest) <;> simp
      · simp only [sort_scan_succ, hc, e1, if_false]
        cases sort_scan less n true (node1 :: rest) <;> simp

theorem sort_scan_full (less : WordCount → WordCount → Bool) (n : Nat) :
    ∀ (sw : Bool) (a : WordCount) (rest seen : List WordCount), rest.length = n →
      ∃ sw1 l1 mx, sort_scan less n sw (a :: rest) = some (sw1, l1 ++ [mx])
        ∧ (l1 ++ [mx]).Perm (a :: rest)
        ∧ (sw1 = false → sw = false ∧ l1 ++ [mx] = a :: rest
            ∧ List.Chain' (fun x y => less x y = true) (a :: rest))
        ∧ ((∀ x, less x x = false) →
           (∀ x y z, less x y = true → less y z = true → less x z = true) →
           (∀ x ∈ seen, less a x = false) → ∀ x ∈ seen ++ l1, less mx x = false) := by
  induction n with
  | zero =>
    intro sw a rest seen hr
    have : rest = [] := List.length_eq_zero.1 hr
    subst this
    refine ⟨sw, [], a, by simp [sort_scan], by simp, ?_, ?_⟩
    · intro h; simp [h]
    · intro _ _ hs x hx
      simp at hx
      exact hs x hx
  | succ n ih =>
    intro sw a rest seen hr
    match rest, hr with
    | b :: rest, hr =>
      have hr1 : rest.length = n := by simpa using hr
      by_cases hc : less a b = true
      · obtain ⟨sw1, l1, mx, h1, hp, hns, hmax⟩ := ih sw b rest (a :: seen) hr1
        refine ⟨sw1, a :: l1, mx, by simp [sort_scan_succ, hc, h1], ?_, ?_, ?_⟩
        · simpa using hp.cons a
        · intro hsw
          obtain ⟨h2, h3, h4⟩ := hns hsw
          refine ⟨h2, ?_, ?_⟩
          · simp only [List.cons_append, h3]
          · exact List.Chain'.cons hc h4
        · intro hirr htr hs x hx
          have hb : ∀ y ∈ a :: seen, less b y = false := by
            intro y hy
            rcases List.mem_cons.1 hy with rfl | hy
            · cases hba : less b y with
              | false => rfl
              | true => have := htr y b y hc hba; rw [hirr] at this; cases this
            · cases hby : less b y with
              | false => rfl
              | true => have := htr a b y hc hby; rw [hs y hy] at this; cases this
          apply hmax hirr htr hb
          simp only [List.mem_append, List.mem_cons] at hx ⊢
          tauto
      · obtain ⟨sw1, l1, mx, h1, hp, hns, hmax⟩ := ih true a rest (b :: seen) hr1
        refine ⟨sw1, b :: l1, mx, by simp [sort_scan_succ, hc, h1], ?_, ?_, ?_⟩
        · have := (hp.cons b).trans (List.Perm.swap a b rest)
          simpa using this
        · intro hsw
          have := (hns hsw).1
          cases this
        · intro hirr htr hs x hx
          have ha : ∀ y ∈ b :: seen, less a y = false := by
            intro y hy
            rcases List.mem_cons.1 hy with rfl | hy
            · simpa using hc
            · exact hs y hy
          apply hmax hirr htr ha
          simp only [List.mem_append, List.mem_cons] at hx ⊢
          tauto

theorem sort_passes_sorted (less : WordCount → WordCount → Bool)
    (hirr : ∀ x, less x x = false)
    (htr : ∀ x y z, less x y = true → less y z = true → less x z = true) (m : Nat) :
    ∀ p q : List WordCount, p.length = m →
      List.Chain' (fun a b => less b a = false) q →
      (∀ x ∈ p, ∀ y ∈ q, less y x = false) →
      ∃ l1, sort_passes less m (p ++ q) = some l1
        ∧ List.Chain' (fun a b => less b a = false) l1 := by
  induction m with
  | zero =>
    intro p q hp hq _
    have : p = [] := List.length_eq_zero.1 hp
    subst this
    exact ⟨q, by simp [sort_passes], hq⟩
  | succ m ih =>
    intro p q hp hq hpq
    match p, hp with
    | a :: rest, hp =>
      have hr : rest.length = m := by simpa using hp
      obtain ⟨sw1, l1, mx, h1, hperm, hns, hmax⟩ := sort_scan_full less m false a rest [] hr
      have happ := sort_scan_append less q m false (a :: rest) (by simp; omega)
      rw [h1] at happ
      simp only [Option.map_some', List.cons_append, List.append_assoc,
        List.singleton_append] at happ
      cases sw1 with
      | false =>
        obtain ⟨_, h3, h4⟩ := hns rfl
        refine ⟨(l1 ++ [mx]) ++ q, by simp [sort_passes, happ], ?_⟩
        rw [h3]
        refine List.Chain'.append ?_ hq ?_
        · refine h4.imp ?_
          intro x y hxy
          cases hyx : less y x with
          | false => rfl
          | true => have := htr x y x hxy hyx; rw [hirr] at this; cases this
        · intro x hx y hy
          exact hpq x (List.mem_of_mem_getLast? hx) y (List.mem_of_mem_head? hy)
      | true =>
        have hmem : ∀ x, x ∈ l1 ++ [mx] → x ∈ a :: rest := fun x hx => hperm.subset hx
        have hl1 : l1.length = m := by
          have := hperm.length_eq
          simp at this
          omega
        have hq1 : List.Chain' (fun a b => less b a = false) (mx :: q) := by
          rw [List.chain'_cons']
          refine ⟨?_, hq⟩
          intro y hy
          exact hpq mx (hmem mx (by simp)) y (List.mem_of_mem_head? hy)
        have hpq1 : ∀ x ∈ l1, ∀ y ∈ mx :: q, less y x = false := by
          intro x hx y hy
          rcases List.mem_cons.1 hy with rfl | hy
          · exact hmax hirr htr (by simp) x (by simpa using hx)
          · exact hpq x (hmem x (by simp [hx])) y hy
        obtain ⟨l2, h2, hc2⟩ := ih l1 (mx :: q) hl1 hq1 hpq1
        exact ⟨l2, by simp [sort_passes, happ, h2], hc2⟩

theorem get_split (pre : List WordCount) (e : WordCount) (post : List WordCount) :
    (pre ++ e :: post).get? pre.length = some e := by
  induction pre with
  | nil => rfl
  | cons x pre ih => simpa using ih

theorem wordcount_less_iff (A B : WordCount) :
    wordcount_less false A B = true ↔ report_order A B := by
  unfold wordcount_less report_order
  by_cases h1 : A.count < B.count
  · simp [h1]
  · by_cases h2 : A.count = B.count
    · simp [h2, strcmp_neg_iff]
    · simp [h1, h2]

theorem lex_irrefl (a : List Nat) : ¬ List.Lex (fun x y : Nat => x < y) a a := by
  induction a with
  | nil => intro h; cases h
  | cons x a ih =>
    intro h
    cases h with
    | cons h => exact ih h
    | rel h => exact absurd h (lt_irrefl x)

theorem add_word_n_absent (L : List WordCount) (w : List Nat)
    (hw : ∀ x ∈ L, x.word ≠ w) (n : Nat) :
    add_word_n L w (n + 1) = { word := w, count := (n : Int) + 1 } :: L := by
  induction n with
  | zero => simp [add_word_n, add_word_absent L w hw]
  | succ n ih =>
    have h := add_word_found [] { word := w, count := (n : Int) + 1 } L w (by simp) rfl
    simp only [List.nil_append] at h
    rw [add_word_n, ih, h]
    simp

/-! ## The tokenizers against the reference splitter -/

theorem is_word_terminator_eq (c : Nat) : is_word_terminator c = (c == 32 || c == 10) := rfl

theorem is_word_character_eq (c : Nat) : is_word_character c = !is_word_terminator c := by
  simp [is_word_character, is_word_terminator, SPACE, NEW_LINE, bne]

theorem tokens_nil : tokens [] = [] := by
  simp [tokens, List.splitOnP_nil]

theorem tokens_run (cur : List Nat) (hcur : ∀ x ∈ cur, is_word_terminator x = false) :
    tokens cur = if cur = [] then [] else [cur] := by
  have h : cur.splitOnP (fun c => c == 32 || c == 10) = [cur] := by
    apply List.splitOnP_eq_single
    intro x hx
    have := hcur x hx
    rw [is_word_terminator_eq] at this
    simp [this]
  unfold tokens
  rw [h]
  cases cur <;> simp

theorem tokens_run_sep (cur : List Nat) (c : Nat) (rest : List Nat)
    (hcur : ∀ x ∈ cur, is_word_terminator x = false) (hc : is_word_terminator c = true) :
    tokens (cur ++ c :: rest) = if cur = [] then tokens rest else cur :: tokens rest := by
  have h : (cur ++ c :: rest).splitOnP (fun c => c == 32 || c == 10)
      = cur :: rest.splitOnP (fun c => c == 32 || c == 10) := by
    apply List.splitOnP_first
    · intro x hx
      have := hcur x hx
      rw [is_word_terminator_eq] at this
      simp [this]
    · rw [is_word_terminator_eq] at hc
      exact hc
  unfold tokens
  rw [h]
  cases cur <;> simp

theorem wrap_int_of_range (n : Int) (h1 : -2147483648 ≤ n) (h2 : n < 2147483648) :
    wrap_int n = n := by
  unfold wrap_int
  omega

theorem wrap_int_add (a b : Int) : wrap_int (wrap_int a + b) = wrap_int (a + b) := by
  unfold wrap_int
  omega

theorem num_words_loop_tokens (s : List Nat) :
    ∀ (cur : List Nat) (prev : Nat) (n : Int),
      (∀ x ∈ cur, is_word_terminator x = false) →
      (is_word_character prev = true ↔ cur ≠ []) →
      wrap_int n = n →
      (if is_word_character (num_words_loop s prev n).2
          then wrap_int ((num_words_loop s prev n).1 + 1)
        else (num_words_loop s prev n).1) = wrap_int (n + ((tokens (cur ++ s)).length : Int)) := by
  induction s with
  | nil =>
    intro cur prev n hcur hprev hn
    simp only [num_words_loop, List.append_nil, tokens_run cur hcur]
    by_cases hc : cur = []
    · have : ¬ is_word_character prev = true := fun h => (hprev.1 h) hc
      simp [hc, this, hn]
    · have : is_word_character prev = true := hprev.2 hc
      simp [hc, this]
  | cons c rest ih =>
    intro cur prev n hcur hprev hn
    simp only [num_words_loop]
    by_cases hc : is_word_terminator c = true
    · have hch : is_word_character c = false := by simp [is_word_character_eq, hc]
      rw [tokens_run_sep cur c rest hcur hc]
      by_cases hcur0 : cur = []
      · have hp : ¬ is_word_character prev = true := fun h => (hprev.1 h) hcur0
        have h := ih [] c n (by simp) (by simp [hch]) hn
        simpa [hcur0, hp] using h
      · have hp : is_word_character prev = true := hprev.2 hcur0
        have h := ih [] c (wrap_int (n + 1)) (by simp) (by simp [hch])
          (by unfold wrap_int; omega)
        simp only [hc, hp, Bool.and_self, if_true, List.nil_append] at h ⊢
        rw [h, wrap_int_add]
        simp only [hcur0, if_false, List.length_cons, Nat.cast_add, Nat.cast_one]
        congr 1
        ring
    · have hc1 : is_word_terminator c = false := by simpa using hc
      have hch : is_word_character c = true := by simp [is_word_character_eq, hc1]
      have h := ih (cur ++ [c]) c n
        (by
          intro x hx
          rcases List.mem_append.1 hx with hx | hx
          · exact hcur x hx
          · simp at hx; rw [hx]; exact hc1)
        (by simp [hch]) hn
      simp only [hc1, Bool.false_and]
      simpa using h

theorem num_words_eq (s : List Nat) : num_words s = wrap_int ((tokens s).length : Int) := by
  have h := num_words_loop_tokens s [] SPACE 0 (by simp)
    (by simp [is_word_character, SPACE]) (by decide)
  simpa [num_words] using h

theorem num_words_eq_length (s : List Nat) (h : (tokens s).length < 2147483648) :
    num_words s = ((tokens s).length : Int) := by
  rw [num_words_eq]
  apply wrap_int_of_range <;> omega

/-! ## The loop of `count_words`: faults and results -/

theorem count_words_step_fault (t : Tokenizer) (c : Nat) (h : t.fault = true) :
    count_words_step t c = t := by
  simp [count_words_step, h]

theorem count_words_loop_fault (s : List Nat) :
    ∀ t : Tokenizer, t.fault = true → count_words_loop s t = t := by
  induction s with
  | nil => intro t _; rfl
  | cons c rest ih =>
    intro t h
    rw [count_words_loop, count_words_step_fault t c h]
    exact ih t h

theorem count_words_step_word (t : Tokenizer) (c : Nat) (hf : t.fault = false)
    (hc : is_word_terminator c = false) :
    count_words_step t c
      = if t.buffer.length
            < (if t.buffer.length ≥ t.buffer_size then t.buffer_size * 2 else t.buffer_size)
          ∧ t.buffer.length < 2147483648 then
          { wclist := t.wclist,
            buffer_size :=
              if t.buffer.length ≥ t.buffer_size then t.buffer_size * 2 else t.buffer_size,
            buffer := t.buffer ++ [c], prev_c := c,
            stores := t.stores ++ [(t.buffer.length,
              if t.buffer.length ≥ t.buffer_size then t.buffer_size * 2 else t.buffer_size)],
            fault := false }
        else
          { wclist := t.wclist,
            buffer_size :=
              if t.buffer.length ≥ t.buffer_size then t.buffer_size * 2 else t.buffer_size,
            buffer := t.buffer, prev_c := t.prev_c,
            stores := t.stores ++ [(t.buffer.length,
              if t.buffer.length ≥ t.buffer_size then t.buffer_size * 2 else t.buffer_size)],
            fault := true } := by
  have hch : is_word_character c = true := by simp [is_word_character_eq, hc]
  cases t with
  | mk wclist buffer_size buffer prev_c stores fault =>
    simp only at hf
    subst hf
    by_cases hg : buffer.length ≥ buffer_size <;>
      by_cases h1 : buffer.length < buffer_size * 2 <;>
      by_cases h2 : buffer.length < buffer_size <;>
      by_cases h3 : buffer.length < 2147483648 <;>
      simp [count_words_step, store_char, store_in_bounds, hch, hc, hg, h1, h2, h3]

theorem count_words_step_sep (t : Tokenizer) (c : Nat) (hf : t.fault = false)
    (hc : is_word_terminator c = true) :
    count_words_step t c
      = if is_word_character t.prev_c = true then
          if t.buffer.length
              < (if t.buffer.length ≥ t.buffer_size then t.buffer_size * 2 else t.buffer_size)
            ∧ t.buffer.length < 2147483648 then
            { wclist := (add_word t.wclist (c_string t.buffer)).2,
              buffer_size :=
                if t.buffer.length ≥ t.buffer_size then t.buffer_size * 2 else t.buffer_size,
              buffer := [], prev_c := c,
              stores := t.stores ++ [(t.buffer.length,
                if t.buffer.length ≥ t.buffer_size then t.buffer_size * 2 else t.buffer_size)],
              fault := false }
          else
            { wclist := t.wclist,
              buffer_size :=
                if t.buffer.length ≥ t.buffer_size then t.buffer_size * 2 else t.buffer_size,
              buffer := t.buffer, prev_c := t.prev_c,
              stores := t.stores ++ [(t.buffer.length,
                if t.buffer.length ≥ t.buffer_size then t.buffer_size * 2 else t.buffer_size)],
              fault := true }
        else
          { wclist := t.wclist,
            buffer_size :=
              if t.buffer.length ≥ t.buffer_size then t.buffer_size * 2 else t.buffer_size,
            buffer := t.buffer, prev_c := c, stores := t.stores, fault := false } := by
  have hch : is_word_character c = false := by simp [is_word_character_eq, hc]
  cases t with
  | mk wclist buffer_size buffer prev_c stores fault =>
    simp only at hf
    subst hf
    by_cases hp : is_word_character prev_c = true <;>
      by_cases hg : buffer.length ≥ buffer_size <;>
      by_cases h1 : buffer.length < buffer_size * 2 <;>
      by_cases h2 : buffer.length < buffer_size <;>
      by_cases h3 : buffer.length < 2147483648 <;>
      simp [count_words_step, emit_word, store_in_bounds, hch, hc, hp, hg, h1, h2, h3]

theorem splitOnP_append_sep (p : Nat → Bool) (sep : Nat) (hsep : p sep = true)
    (xs ys : List Nat) :
    (xs ++ sep :: ys).splitOnP p = xs.splitOnP p ++ ys.splitOnP p := by
  induction xs with
  | nil => simp [List.splitOnP_cons, hsep, List.splitOnP_nil]
  | cons x xs ih =>
    simp only [List.cons_append, List.splitOnP_cons, ih]
    by_cases hx : p x = true
    · simp [hx]
    · simp only [hx]
      cases h : xs.splitOnP p with
      | nil => exact absurd h (List.splitOnP_ne_nil p xs)
      | cons hd tl => simp

theorem tokens_append_sep (c : Nat) (hc : is_word_terminator c = true) (xs ys : List Nat) :
    tokens (xs ++ c :: ys) = tokens xs ++ tokens ys := by
  rw [is_word_terminator_eq] at hc
  unfold tokens
  rw [splitOnP_append_sep (fun c => c == 32 || c == 10) c hc, List.filter_append]

theorem mem_of_mem_splitOnP (p : Nat → Bool) (s : List Nat) :
    ∀ piece ∈ s.splitOnP p, ∀ b ∈ piece, b ∈ s := by
  induction s with
  | nil => simp [List.splitOnP_nil]
  | cons x xs ih =>
    intro piece hpiece b hb
    rw [List.splitOnP_cons] at hpiece
    by_cases hx : p x = true
    · simp only [hx, if_true, List.mem_cons] at hpiece
      rcases hpiece with rfl | hpiece
      · simp at hb
      · exact List.mem_cons_of_mem _ (ih piece hpiece b hb)
    · simp only [hx] at hpiece
      cases h : xs.splitOnP p with
      | nil => exact absurd h (List.splitOnP_ne_nil p xs)
      | cons hd tl =>
        rw [h] at hpiece ih
        have hpiece1 : piece = x :: hd ∨ piece ∈ tl := by
          simpa using hpiece
        rcases hpiece1 with hp1 | hp1
        · rw [hp1] at hb
          rcases List.mem_cons.1 hb with hb1 | hb1
          · rw [hb1]; exact List.mem_cons_self _ _
          · exact List.mem_cons_of_mem _ (ih hd (List.mem_cons_self _ _) b hb1)
        · exact List.mem_cons_of_mem _ (ih piece (List.mem_cons_of_mem _ hp1) b hb)

theorem mem_of_mem_tokens (s : List Nat) : ∀ t ∈ tokens s, ∀ b ∈ t, b ∈ s := by
  intro t ht b hb
  exact mem_of_mem_splitOnP _ s t (List.mem_of_mem_filter ht) b hb

theorem c_string_eq_self (w : List Nat) (hw : ∀ b ∈ w, b ≠ 0) : c_string w = w := by
  unfold c_string
  rw [List.takeWhile_eq_self_iff]
  intro b hb
  simpa [STRING_TERMINATOR] using hw b hb

theorem tokens_map_c_string (s : List Nat) (hs : ∀ b ∈ s, b ≠ 0) :
    (tokens s).map c_string = tokens s := by
  conv_rhs => rw [← List.map_id (tokens s)]
  apply List.map_congr_left
  intro t ht
  exact c_string_eq_self t (fun b hb => hs b (mem_of_mem_tokens s t ht b hb))

/-! ## What `count_words` computes when it does not fault, and when it does not fault -/

theorem count_words_loop_result (s : List Nat) :
    ∀ t : Tokenizer, t.fault = false →
      (∀ x ∈ t.buffer, is_word_terminator x = false) →
      (is_word_character t.prev_c = true ↔ t.buffer ≠ []) →
      (count_words_finish (count_words_loop s t)).fault = false →
      (count_words_finish (count_words_loop s t)).wclist
        = add_words t.wclist ((tokens (t.buffer ++ s)).map c_string) := by
  induction s with
  | nil =>
    intro t hf hbuf hprev hfin
    simp only [count_words_loop, List.append_nil, tokens_run t.buffer hbuf] at hfin ⊢
    by_cases hc : t.buffer = []
    · have : ¬ is_word_character t.prev_c = true := fun h => (hprev.1 h) hc
      simp [count_words_finish, hf, hc, this, add_words]
    · have hp : is_word_character t.prev_c = true := hprev.2 hc
      simp only [count_words_finish, hf, hp, if_true, Bool.false_eq_true, if_false] at hfin ⊢
      by_cases hb : store_in_bounds t = true
      · simp [emit_word, hb, hc, add_words]
      · simp [emit_word, hb] at hfin
  | cons c rest ih =>
    intro t hf hbuf hprev hfin
    simp only [count_words_loop] at hfin ⊢
    by_cases hstep : (count_words_step t c).fault = true
    · rw [count_words_loop_fault rest _ hstep] at hfin
      simp [count_words_finish, hstep] at hfin
    · have hstep0 : (count_words_step t c).fault = false := by simpa using hstep
      by_cases hc : is_word_terminator c = true
      · have hch : is_word_character c = false := by simp [is_word_character_eq, hc]
        have hs := count_words_step_sep t c hf hc
        rw [tokens_run_sep t.buffer c rest hbuf hc]
        by_cases hcur0 : t.buffer = []
        · have hp : ¬ is_word_character t.prev_c = true := fun h => (hprev.1 h) hcur0
          simp only [hp, if_false] at hs
          have h := ih (count_words_step t c) hstep0 (by simp [hs, hcur0])
            (by simp [hs, hcur0, hch]) hfin
          rw [h, hs]
          simp [hcur0]
        · have hp : is_word_character t.prev_c = true := hprev.2 hcur0
          simp only [hp, if_true] at hs
          by_cases hb : t.buffer.length
              < (if t.buffer.length ≥ t.buffer_size then t.buffer_size * 2 else t.buffer_size)
              ∧ t.buffer.length < 2147483648
          · rw [if_pos hb] at hs
            have h := ih (count_words_step t c) hstep0 (by simp [hs])
              (by simp [hs, hch]) hfin
            rw [h, hs]
            simp [hcur0, add_words]
          · rw [if_neg hb] at hs
            rw [hs] at hstep0
            simp at hstep0
      · have hc1 : is_word_terminator c = false := by simpa using hc
        have hch : is_word_character c = true := by simp [is_word_character_eq, hc1]
        have hs := count_words_step_word t c hf hc1
        by_cases hb : t.buffer.length
            < (if t.buffer.length ≥ t.buffer_size then t.buffer_size * 2 else t.buffer_size)
            ∧ t.buffer.length < 2147483648
        · rw [if_pos hb] at hs
          have h := ih (count_words_step t c) hstep0
            (by
              rw [hs]
              intro x hx
              rcases List.mem_append.1 hx with hx | hx
              · exact hbuf x hx
              · simp at hx; rw [hx]; exact hc1)
            (by simp [hs, hch]) hfin
          rw [h, hs]
          simp
        · rw [if_neg hb] at hs
          rw [hs] at hstep0
          simp at hstep0

theorem tokens_prefix_length (rest : List Nat) :
    ∀ cur : List Nat, (∀ x ∈ cur, is_word_terminator x = false) → cur ≠ [] →
      ∃ tok ∈ tokens (cur ++ rest), cur.length ≤ tok.length := by
  induction rest with
  | nil =>
    intro cur hcur hne
    refine ⟨cur, ?_, le_refl _⟩
    simp [tokens_run cur hcur, hne]
  | cons c rest ih =>
    intro cur hcur hne
    by_cases hc : is_word_terminator c = true
    · refine ⟨cur, ?_, le_refl _⟩
      simp [tokens_run_sep cur c rest hcur hc, hne]
    · have hc1 : is_word_terminator c = false := by simpa using hc
      obtain ⟨tok, htok, hlen⟩ := ih (cur ++ [c])
        (by
          intro x hx
          rcases List.mem_append.1 hx with hx | hx
          · exact hcur x hx
          · simp at hx; rw [hx]; exact hc1)
        (by simp)
      refine ⟨tok, by simpa using htok, ?_⟩
      simp only [List.length_append, List.length_singleton] at hlen
      omega

theorem count_words_loop_no_fault (s : List Nat) :
    ∀ t : Tokenizer, t.fault = false →
      (∀ x ∈ t.buffer, is_word_terminator x = false) →
      (is_word_character t.prev_c = true ↔ t.buffer ≠ []) →
      t.buffer.length ≤ t.buffer_size →
      (∃ k, t.buffer_size = 16 * 2 ^ k) →
      (∀ tok ∈ tokens (t.buffer ++ s), tok.length < 2147483648) →
      (∀ k, (s.foldl (fun run c => if c == 32 || c == 10 then [] else run ++ [c])
          t.buffer).length ≠ 16 * 2 ^ k) →
      (count_words_finish (count_words_loop s t)).fault = false := by
  induction s with
  | nil =>
    intro t hf hbuf hprev hcap hsize htok hlast
    simp only [count_words_loop, count_words_finish, hf, Bool.false_eq_true, if_false]
    by_cases hp : is_word_character t.prev_c = true
    · have hne : t.buffer ≠ [] := hprev.1 hp
      obtain ⟨k, hk⟩ := hsize
      have h1 : t.buffer.length < t.buffer_size := by
        have := hlast k
        simp only [List.foldl_nil] at this
        omega
      have h2 : t.buffer.length < 2147483648 := by
        apply htok
        simp [tokens_run t.buffer hbuf, hne]
      simp [hp, emit_word, store_in_bounds, h1, h2, hf]
    · simp [hp, hf]
  | cons c rest ih =>
    intro t hf hbuf hprev hcap hsize htok hlast
    obtain ⟨k, hk⟩ := hsize
    have hpos : 0 < t.buffer_size := by rw [hk]; positivity
    have hroom : t.buffer.length
        < (if t.buffer.length ≥ t.buffer_size then t.buffer_size * 2 else t.buffer_size) := by
      split <;> omega
    have hsize1 : ∃ k1, (if t.buffer.length ≥ t.buffer_size then t.buffer_size * 2
        else t.buffer_size) = 16 * 2 ^ k1 := by
      split
      · exact ⟨k + 1, by rw [hk, pow_succ]; ring⟩
      · exact ⟨k, hk⟩
    simp only [count_words_loop]
    by_cases hc : is_word_terminator c = true
    · have hch : is_word_character c = false := by simp [is_word_character_eq, hc]
      have hsep : (c == 32 || c == 10) = true := by rw [← is_word_terminator_eq]; exact hc
      have hs := count_words_step_sep t c hf hc
      rw [tokens_run_sep t.buffer c rest hbuf hc] at htok
      simp only [List.foldl_cons, hsep, if_true] at hlast
      by_cases hcur0 : t.buffer = []
      · have hp : ¬ is_word_character t.prev_c = true := fun h => (hprev.1 h) hcur0
        simp only [hp, if_false] at hs
        simp only [hcur0, if_true] at htok
        apply ih (count_words_step t c) (by simp [hs]) (by simp [hs, hcur0])
          (by simp [hs, hcur0, hch]) (by simp [hs, hcur0]) (by rw [hs]; exact hsize1)
        · rw [hs]; simpa [hcur0] using htok
        · rw [hs]; simpa [hcur0] using hlast
      · have hp : is_word_character t.prev_c = true := hprev.2 hcur0
        simp only [hcur0, if_false] at htok
        have h2 : t.buffer.length < 2147483648 := htok t.buffer (List.mem_cons_self _ _)
        simp only [hp, if_true, hroom, h2, and_self] at hs
        apply ih (count_words_step t c) (by simp [hs]) (by simp [hs])
          (by simp [hs, hch]) (by simp [hs]) (by rw [hs]; exact hsize1)
        · rw [hs]
          intro tok ht
          exact htok tok (List.mem_cons_of_mem _ (by simpa using ht))
        · rw [hs]; simpa using hlast
    · have hc1 : is_word_terminator c = false := by simpa using hc
      have hch : is_word_character c = true := by simp [is_word_character_eq, hc1]
      have hsep : (c == 32 || c == 10) = false := by rw [← is_word_terminator_eq]; exact hc1
      have hs := count_words_step_word t c hf hc1
      have hbuf1 : ∀ x ∈ t.buffer ++ [c], is_word_terminator x = false := by
        intro x hx
        rcases List.mem_append.1 hx with hx | hx
        · exact hbuf x hx
        · simp at hx; rw [hx]; exact hc1
      have htok1 : ∀ tok ∈ tokens ((t.buffer ++ [c]) ++ rest), tok.length < 2147483648 := by
        intro tok ht
        exact htok tok (by simpa using ht)
      have h2 : t.buffer.length < 2147483648 := by
        obtain ⟨tok, ht, hlen⟩ := tokens_prefix_length rest (t.buffer ++ [c]) hbuf1 (by simp)
        have := htok1 tok ht
        simp only [List.length_append, List.length_singleton] at hlen
        omega
      simp only [hroom, h2, and_self, if_true] at hs
      simp only [List.foldl_cons, hsep, Bool.false_eq_true, if_false] at hlast
      apply ih (count_words_step t c) (by simp [hs]) (by rw [hs]; exact hbuf1)
        (by simp [hs, hch])
        (by
          rw [hs]
          simp only [List.length_append, List.length_singleton]
          omega)
        (by rw [hs]; exact hsize1)
      · rw [hs]; exact htok1
      · rw [hs]; exact hlast

theorem count_words_result (L : List WordCount) (s : List Nat) (code : Int)
    (l1 : List WordCount) (h : count_words L (some s) = some (code, l1)) :
    code = 0 ∧ l1 = add_words L ((tokens s).map c_string) := by
  simp only [count_words] at h
  split at h
  · cases h
  · rename_i hf
    have hf0 : (count_words_run L s).fault = false := by simpa using hf
    have hr := count_words_loop_result s
      { wclist := L, buffer_size := 16, buffer := [], prev_c := SPACE, stores := [] }
      rfl (by simp) (by simp [is_word_character, SPACE]) hf0
    simp only [Option.some.injEq, Prod.mk.injEq] at h
    refine ⟨h.1.symm, ?_⟩
    rw [← h.2]
    simpa [count_words_run] using hr

theorem count_words_fits (L : List WordCount) (s : List Nat)
    (hlen : ∀ tok ∈ tokens s, tok.length < 2147483648)
    (hlast : ∀ k, (last_run s).length ≠ 16 * 2 ^ k) :
    count_words L (some s) = some (0, add_words L ((tokens s).map c_string)) := by
  have hf : (count_words_run L s).fault = false :=
    count_words_loop_no_fault s
      { wclist := L, buffer_size := 16, buffer := [], prev_c := SPACE, stores := [] }
      rfl (by simp) (by simp [is_word_character, SPACE]) (by simp) ⟨0, by simp⟩
      (by simpa using hlen) hlast
  have hsome : count_words L (some s) = some (0, (count_words_run L s).wclist) := by
    simp [count_words, hf]
  rw [hsome, (count_words_result L s 0 _ hsome).2]

/-! ## Counts and presence after `add_word` -/

theorem count_of_cons (x : WordCount) (l : List WordCount) (w : List Nat) :
    count_of (x :: l) w = if x.word = w then x.count else count_of l w := by
  unfold count_of
  by_cases h : x.word = w
  · simp [find_word, strcmp_eq_zero_iff, h]
  · simp only [find_word, bne_iff_ne, ne_eq, strcmp_eq_zero_iff, h, not_false_eq_true,
      if_true, if_false]
    cases find_word l w <;> simp

theorem count_of_absent (l : List WordCount) (w : List Nat) (h : ∀ x ∈ l, x.word ≠ w) :
    count_of l w = 0 := by
  simp [count_of, (find_word_eq_none_iff l w).2 h]

theorem count_of_append_absent (pre l : List WordCount) (w : List Nat)
    (h : ∀ x ∈ pre, x.word ≠ w) : count_of (pre ++ l) w = count_of l w := by
  induction pre with
  | nil => rfl
  | cons x pre ih =>
    have hx : x.word ≠ w := h x (List.mem_cons_self _ _)
    simp [count_of_cons, hx, ih (fun y hy => h y (List.mem_cons_of_mem _ hy))]

theorem count_of_split_other (pre post : List WordCount) (e1 e2 : WordCount)
    (w : List Nat) (h1 : e1.word ≠ w) (h2 : e2.word ≠ w) :
    count_of (pre ++ e1 :: post) w = count_of (pre ++ e2 :: post) w := by
  induction pre with
  | nil => simp [count_of_cons, h1, h2]
  | cons x pre ih => simp [count_of_cons, ih]

theorem count_of_add_word (L : List WordCount) (w v : List Nat) :
    count_of (add_word L w).2 v = count_of L v + (if w = v then 1 else 0) := by
  by_cases h : ∃ e ∈ L, e.word = w
  · obtain ⟨pre, e, post, hl, hpre, he⟩ := exists_first_match L w h
    rw [hl, add_word_found pre e post w hpre he]
    by_cases hv : w = v
    · subst hv
      simp [count_of_append_absent _ _ _ hpre, count_of_cons, he]
    · have hv1 : e.word ≠ v := by rw [he]; exact hv
      simp only [hv, if_false, add_zero]
      exact count_of_split_other pre post _ e v hv1 hv1
  · have h1 : ∀ x ∈ L, x.word ≠ w := fun x hx hw => h ⟨x, hx, hw⟩
    rw [add_word_absent L w h1, count_of_cons]
    by_cases hv : w = v
    · subst hv
      simp [count_of_absent L w h1]
    · simp [hv]

theorem count_of_add_words (ws : List (List Nat)) :
    ∀ (L : List WordCount) (v : List Nat),
      count_of (add_words L ws) v = count_of L v + (ws.count v : Int) := by
  induction ws with
  | nil => intro L v; simp [add_words]
  | cons w ws ih =>
    intro L v
    have h := ih (add_word L w).2 v
    simp only [add_words, List.foldl_cons] at h ⊢
    rw [h, count_of_add_word, List.count_cons]
    by_cases hv : w = v
    · simp [hv]; ring
    · simp [hv]

theorem words_add_word (L : List WordCount) (w : List Nat) :
    (add_word L w).2.map (fun e => e.word)
      = if w ∈ L.map (fun e => e.word) then L.map (fun e => e.word)
        else w :: L.map (fun e => e.word) := by
  by_cases h : ∃ e ∈ L, e.word = w
  · obtain ⟨pre, e, post, hl, hpre, he⟩ := exists_first_match L w h
    have hm : w ∈ L.map (fun e => e.word) := by
      obtain ⟨e1, he1, hw1⟩ := h
      exact List.mem_map.2 ⟨e1, he1, hw1⟩
    rw [if_pos hm, hl, add_word_found pre e post w hpre he]
    simp
  · have h1 : ∀ x ∈ L, x.word ≠ w := fun x hx hw => h ⟨x, hx, hw⟩
    have hm : ¬ w ∈ L.map (fun e => e.word) := by
      intro hm
      obtain ⟨e1, he1, hw1⟩ := List.mem_map.1 hm
      exact h ⟨e1, he1, hw1⟩
    rw [if_neg hm, add_word_absent L w h1]
    simp

theorem nodup_add_word (L : List WordCount) (w : List Nat)
    (h : (L.map (fun e => e.word)).Nodup) :
    ((add_word L w).2.map (fun e => e.word)).Nodup := by
  rw [words_add_word]
  split
  · exact h
  · rename_i hm
    exact List.nodup_cons.2 ⟨hm, h⟩

theorem mem_words_add_word (L : List WordCount) (w v : List Nat) :
    v ∈ (add_word L w).2.map (fun e => e.word) ↔ v ∈ L.map (fun e => e.word) ∨ v = w := by
  rw [words_add_word]
  split
  · rename_i hm
    constructor
    · intro h; exact Or.inl h
    · rintro (h | rfl)
      · exact h
      · exact hm
  · simp only [List.mem_cons]
    tauto

theorem counts_add_word (L : List WordCount) (w : List Nat) (h : ∀ e ∈ L, 1 ≤ e.count) :
    ∀ e ∈ (add_word L w).2, 1 ≤ e.count := by
  by_cases hw : ∃ e ∈ L, e.word = w
  · obtain ⟨pre, e, post, hl, hpre, he⟩ := exists_first_match L w hw
    rw [hl, add_word_found pre e post w hpre he]
    have he1 : 1 ≤ e.count := h e (by rw [hl]; simp)
    intro x hx
    simp only [List.mem_append, List.mem_cons] at hx
    rcases hx with hx | rfl | hx
    · exact h x (by rw [hl]; simp [hx])
    · simp; omega
    · exact h x (by rw [hl]; simp [hx])
  · have h1 : ∀ x ∈ L, x.word ≠ w := fun x hx hw1 => hw ⟨x, hx, hw1⟩
    rw [add_word_absent L w h1]
    intro x hx
    rcases List.mem_cons.1 hx with rfl | hx
    · simp
    · exact h x hx

theorem nodup_add_words (ws : List (List Nat)) :
    ∀ L : List WordCount, (L.map (fun e => e.word)).Nodup →
      ((add_words L ws).map (fun e => e.word)).Nodup := by
  induction ws with
  | nil => intro L h; simpa [add_words] using h
  | cons w ws ih =>
    intro L h
    have := ih (add_word L w).2 (nodup_add_word L w h)
    simpa [add_words] using this

theorem counts_add_words (ws : List (List Nat)) :
    ∀ L : List WordCount, (∀ e ∈ L, 1 ≤ e.count) → ∀ e ∈ add_words L ws, 1 ≤ e.count := by
  induction ws with
  | nil => intro L h; simpa [add_words] using h
  | cons w ws ih =>
    intro L h
    have := ih (add_word L w).2 (counts_add_word L w h)
    simpa [add_words] using this

theorem mem_words_add_words (ws : List (List Nat)) :
    ∀ (L : List WordCount) (v : List Nat),
      v ∈ (add_words L ws).map (fun e => e.word) ↔ v ∈ L.map (fun e => e.word) ∨ v ∈ ws := by
  induction ws with
  | nil => intro L v; simp [add_words]
  | cons w ws ih =>
    intro L v
    have := ih (add_word L w).2 v
    simp only [add_words, List.foldl_cons] at this ⊢
    rw [this, mem_words_add_word]
    simp only [List.mem_cons]
    tauto

theorem wordcount_sort_some_perm (l : List WordCount) (less : WordCount → WordCount → Bool)
    (l1 : List WordCount) (h : wordcount_sort l less = some l1) : l1.Perm l := by
  obtain ⟨l2, h2, hp⟩ := sort_passes_perm less l.length l (le_refl _)
  rw [wordcount_sort, len_words_eq_length, h2] at h
  cases h
  exact hp

theorem reachable_inv (L : List WordCount) (h : Reachable L) :
    (L.map (fun e => e.word)).Nodup ∧ ∀ e ∈ L, 1 ≤ e.count := by
  induction h with
  | init => simp [init_words]
  | add_word l word _ ih => exact ⟨nodup_add_word l word ih.1, counts_add_word l word ih.2⟩
  | count_words l infile code l1 _ hc ih =>
    cases infile with
    | none =>
      simp only [count_words, Option.some.injEq, Prod.mk.injEq] at hc
      rw [← hc.2]
      exact ih
    | some s =>
      rw [(count_words_result l s code l1 hc).2]
      exact ⟨nodup_add_words _ l ih.1, counts_add_words _ l ih.2⟩
  | wordcount_sort l less l1 _ hs ih =>
    have hp := wordcount_sort_some_perm l less l1 hs
    exact ⟨((hp.map _).nodup_iff).2 ih.1, fun e he => ih.2 e (hp.subset he)⟩

/-! ## The report: order and content -/

theorem report_order_irrefl (a : WordCount) : ¬ report_order a a := by
  rintro (h | ⟨_, h⟩)
  · exact lt_irrefl _ h
  · exact lex_irrefl _ h

theorem report_order_trans (a b c : WordCount) (h1 : report_order a b)
    (h2 : report_order b c) : report_order a c := by
  unfold report_order at *
  rcases h1 with h1 | ⟨h1, h1w⟩
  · rcases h2 with h2 | ⟨h2, _⟩
    · exact Or.inl (lt_trans h1 h2)
    · exact Or.inl (by omega)
  · rcases h2 with h2 | ⟨h2, h2w⟩
    · exact Or.inl (by omega)
    · exact Or.inr ⟨h1.trans h2, trans_of (List.Lex (fun x y : Nat => x < y)) h1w h2w⟩

theorem report_order_trichotomy (a b : WordCount) :
    report_order a b ∨ a = b ∨ report_order b a := by
  unfold report_order
  rcases lt_trichotomy a.count b.count with h | h | h
  · exact Or.inl (Or.inl h)
  · rcases trichotomous_of (List.Lex (fun x y : Nat => x < y)) a.word b.word with hw | hw | hw
    · exact Or.inl (Or.inr ⟨h, hw⟩)
    · right; left
      cases a; cases b
      simp only [WordCount.mk.injEq]
      exact ⟨hw, h⟩
    · exact Or.inr (Or.inr (Or.inr ⟨h.symm, hw⟩))
  · exact Or.inr (Or.inr (Or.inl h))

theorem wordcount_less_irrefl (a : WordCount) : wordcount_less false a a = false := by
  have h : ¬ (wordcount_less false a a = true) := by
    rw [wordcount_less_iff]
    exact report_order_irrefl a
  simpa using h

theorem wordcount_less_trans (a b c : WordCount) (h1 : wordcount_less false a b = true)
    (h2 : wordcount_less false b c = true) : wordcount_less false a c = true := by
  rw [wordcount_less_iff] at *
  exact report_order_trans a b c h1 h2

theorem not_less_iff (a b : WordCount) :
    wordcount_less false b a = false ↔ (a = b ∨ report_order a b) := by
  have h : wordcount_less false b a = false ↔ ¬ report_order b a := by
    rw [← wordcount_less_iff]
    simp
  rw [h]
  constructor
  · intro hn
    rcases report_order_trichotomy a b with h1 | h1 | h1
    · exact Or.inr h1
    · exact Or.inl h1
    · exact absurd h1 hn
  · rintro (rfl | h1) h2
    · exact report_order_irrefl _ h2
    · exact report_order_irrefl _ (report_order_trans _ _ _ h1 h2)

theorem sorted_nodup_pairwise (E : List WordCount)
    (hc : List.Chain' (fun a b => wordcount_less false b a = false) E) (hn : E.Nodup) :
    E.Pairwise report_order := by
  haveI : IsTrans WordCount (fun a b => wordcount_less false b a = false) := by
    constructor
    intro a b c hab hbc
    rw [not_less_iff] at *
    rcases hab with rfl | hab
    · exact hbc
    · rcases hbc with rfl | hbc
      · exact Or.inr hab
      · exact Or.inr (report_order_trans _ _ _ hab hbc)
  have hp := List.chain'_iff_pairwise.1 hc
  have hboth := hp.and hn
  refine hboth.imp ?_
  intro a b hab
  rcases (not_less_iff a b).1 hab.1 with h | h
  · exact absurd h hab.2
  · exact h

theorem count_of_of_mem (L : List WordCount) (hn : (L.map (fun e => e.word)).Nodup)
    (e : WordCount) (he : e ∈ L) : count_of L e.word = e.count := by
  induction L with
  | nil => cases he
  | cons x L ih =>
    rw [List.map_cons, List.nodup_cons] at hn
    rw [count_of_cons]
    rcases List.mem_cons.1 he with rfl | he1
    · simp
    · have hne : x.word ≠ e.word := by
        intro heq
        exact hn.1 (heq ▸ List.mem_map.2 ⟨e, he1, rfl⟩)
      simp [hne, ih hn.2 he1]

theorem fprint_words_eq (E : List WordCount) :
    fprint_words E = (E.map report_line).flatten := by
  induction E with
  | nil => rfl
  | cons e E ih => simp [fprint_words, report_line, ih]

theorem ledger_perm_tokens (ws : List (List Nat)) :
    (add_words [] ws).Perm
      (ws.dedup.map (fun w => ({ word := w, count := (ws.count w : Int) } : WordCount))) := by
  have hnd : ((add_words [] ws).map (fun e => e.word)).Nodup := nodup_add_words ws [] (by simp)
  have hcnt : ∀ e ∈ add_words [] ws, e.count = (ws.count e.word : Int) := by
    intro e he
    rw [← count_of_of_mem _ hnd e he, count_of_add_words]
    simp [count_of, find_word]
  have hperm : ((add_words [] ws).map (fun e => e.word)).Perm ws.dedup := by
    rw [List.perm_ext_iff_of_nodup hnd (List.nodup_dedup ws)]
    intro w
    rw [mem_words_add_words, List.mem_dedup]
    simp
  have hself : add_words [] ws
      = ((add_words [] ws).map (fun e => e.word)).map
          (fun w => ({ word := w, count := (ws.count w : Int) } : WordCount)) := by
    rw [List.map_map]
    conv_lhs => rw [← List.map_id (add_words [] ws)]
    apply List.map_congr_left
    intro e he
    have := hcnt e he
    cases e
    simp at this ⊢
    exact this
  rw [hself]
  exact hperm.map _

theorem frequency_report_eq (s : List Nat) (hs : ∀ b ∈ s, b ≠ 0)
    (hlen : ∀ tok ∈ tokens s, tok.length < 2147483648)
    (hlast : ∀ k, (last_run s).length ≠ 16 * 2 ^ k) :
    ∃ E : List WordCount,
      frequency_report s = some ((E.map report_line).flatten)
      ∧ E.Perm ((tokens s).dedup.map
          (fun w => ({ word := w, count := ((tokens s).count w : Int) } : WordCount)))
      ∧ E.Pairwise report_order := by
  have hcw : count_words init_words.2 (some s) = some (0, add_words [] (tokens s)) := by
    rw [count_words_fits init_words.2 s hlen hlast, tokens_map_c_string s hs]
    rfl
  obtain ⟨E, hE, hsorted⟩ := sort_passes_sorted (wordcount_less false) wordcount_less_irrefl
    wordcount_less_trans (add_words [] (tokens s)).length (add_words [] (tokens s)) [] rfl
    List.chain'_nil (by simp)
  rw [List.append_nil] at hE
  have hsort : wordcount_sort (add_words [] (tokens s)) (wordcount_less false) = some E := by
    rw [wordcount_sort, len_words_eq_length, hE]
  have hperm : E.Perm (add_words [] (tokens s)) := wordcount_sort_some_perm _ _ _ hsort
  have hnd : ((add_words [] (tokens s)).map (fun e => e.word)).Nodup :=
    nodup_add_words _ [] (by simp)
  have hEn : E.Nodup := (hperm.nodup_iff).2 (List.Nodup.of_map _ hnd)
  refine ⟨E, ?_, hperm.trans (ledger_perm_tokens (tokens s)), sorted_nodup_pairwise E hsorted hEn⟩
  simp only [frequency_report, hcw, hsort, Option.map_some', fprint_words_eq]

/-! ## The default comparator as an order, and the uniqueness of the sorted list -/

theorem incomparable_eq (a b : WordCount) (h1 : wordcount_less false a b = false)
    (h2 : wordcount_less false b a = false) : a = b := by
  rcases (not_less_iff b a).1 h1 with h | h
  · exact h.symm
  · rcases (not_less_iff a b).1 h2 with h3 | h3
    · exact h3
    · exact absurd (report_order_trans _ _ _ h h3) (report_order_irrefl _)

theorem wordcount_less_swo : StrictWeakOrdering (wordcount_less false) := by
  refine ⟨wordcount_less_irrefl, wordcount_less_trans, ?_⟩
  intro a b c h1 h2 h3 h4
  have hab := incomparable_eq a b h1 h2
  have hbc := incomparable_eq b c h3 h4
  subst hab
  subst hbc
  exact ⟨wordcount_less_irrefl a, wordcount_less_irrefl a⟩

theorem wordcount_less_total (a b : WordCount) (h : a ≠ b) :
    (wordcount_less false a b = true ∧ wordcount_less false b a = false)
    ∨ (wordcount_less false a b = false ∧ wordcount_less false b a = true) := by
  rcases report_order_trichotomy a b with h1 | h1 | h1
  · left
    exact ⟨(wordcount_less_iff a b).2 h1, (not_less_iff a b).2 (Or.inr h1)⟩
  · exact absurd h1 h
  · right
    exact ⟨(not_less_iff b a).2 (Or.inr h1), (wordcount_less_iff b a).2 h1⟩

theorem count_words_step_stores (t : Tokenizer) (c : Nat)
    (hcap : t.buffer.length ≤ t.buffer_size) (hpos : 0 < t.buffer_size)
    (hst : ∀ p ∈ t.stores, p.1 < p.2) :
    (count_words_step t c).buffer.length ≤ (count_words_step t c).buffer_size
    ∧ 0 < (count_words_step t c).buffer_size
    ∧ ∀ p ∈ (count_words_step t c).stores, p.1 < p.2 := by
  have hroom : t.buffer.length
      < (if t.buffer.length ≥ t.buffer_size then t.buffer_size * 2 else t.buffer_size) := by
    split <;> omega
  have hpos1 : 0
      < (if t.buffer.length ≥ t.buffer_size then t.buffer_size * 2 else t.buffer_size) := by
    split <;> omega
  have hcap1 : t.buffer.length
      ≤ (if t.buffer.length ≥ t.buffer_size then t.buffer_size * 2 else t.buffer_size) :=
    le_of_lt hroom
  have hnew : ∀ p ∈ t.stores ++ [(t.buffer.length,
      if t.buffer.length ≥ t.buffer_size then t.buffer_size * 2 else t.buffer_size)],
      p.1 < p.2 := by
    intro p hp
    rcases List.mem_append.1 hp with hp | hp
    · exact hst p hp
    · simp only [List.mem_singleton] at hp
      rw [hp]
      exact hroom
  by_cases hf : t.fault = true
  · rw [count_words_step_fault t c hf]
    exact ⟨hcap, hpos, hst⟩
  · have hf0 : t.fault = false := by simpa using hf
    by_cases hc : is_word_terminator c = true
    · rw [count_words_step_sep t c hf0 hc]
      by_cases hp : is_word_character t.prev_c = true
      · rw [if_pos hp]
        by_cases hb : t.buffer.length
            < (if t.buffer.length ≥ t.buffer_size then t.buffer_size * 2 else t.buffer_size)
            ∧ t.buffer.length < 2147483648
        · rw [if_pos hb]
          exact ⟨by simp, hpos1, hnew⟩
        · rw [if_neg hb]
          exact ⟨hcap1, hpos1, hnew⟩
      · rw [if_neg hp]
        exact ⟨hcap1, hpos1, hst⟩
    · have hc1 : is_word_terminator c = false := by simpa using hc
      rw [count_words_step_word t c hf0 hc1]
      by_cases hb : t.buffer.length
          < (if t.buffer.length ≥ t.buffer_size then t.buffer_size * 2 else t.buffer_size)
          ∧ t.buffer.length < 2147483648
      · rw [if_pos hb]
        refine ⟨?_, hpos1, hnew⟩
        simp only [List.length_append, List.length_singleton]
        omega
      · rw [if_neg hb]
        exact ⟨hcap1, hpos1, hnew⟩

theorem count_words_loop_stores (s : List Nat) :
    ∀ t : Tokenizer, t.buffer.length ≤ t.buffer_size → 0 < t.buffer_size →
      (∀ p ∈ t.stores, p.1 < p.2) →
      (count_words_loop s t).buffer.length ≤ (count_words_loop s t).buffer_size
      ∧ ∀ p ∈ (count_words_loop s t).stores, p.1 < p.2 := by
  induction s with
  | nil => intro t hcap _ hst; exact ⟨hcap, hst⟩
  | cons c rest ih =>
    intro t hcap hpos hst
    obtain ⟨h1, h2, h3⟩ := count_words_step_stores t c hcap hpos hst
    exact ih (count_words_step t c) h1 h2 h3

theorem count_words_run_stores (L : List WordCount) (s : List Nat) :
    ∀ p ∈ (count_words_run L s).stores, p.1 ≤ p.2 := by
  obtain ⟨h1, h2⟩ := count_words_loop_stores s
    { wclist := L, buffer_size := 16, buffer := [], prev_c := SPACE, stores := [] }
    (by simp) (by simp) (by simp)
  unfold count_words_run count_words_finish
  split
  · intro p hp
    exact le_of_lt (h2 p hp)
  · split
    · intro p hp
      have hp1 : p ∈ (count_words_loop s
            { wclist := L, buffer_size := 16, buffer := [], prev_c := SPACE,
              stores := [] }).stores
          ∨ p = ((count_words_loop s
            { wclist := L, buffer_size := 16, buffer := [], prev_c := SPACE,
              stores := [] }).buffer.length,
            (count_words_loop s
            { wclist := L, buffer_size := 16, buffer := [], prev_c := SPACE,
              stores := [] }).buffer_size) := by
        unfold emit_word at hp
        split at hp <;> simpa using hp
      rcases hp1 with hp1 | hp1
      · exact le_of_lt (h2 p hp1)
      · rw [hp1]; exact h1
    · intro p hp
      exact le_of_lt (h2 p hp)

/-! ## The allocation-aware model agrees with the first one when nothing fails -/

theorem find_word_m_of (L : List WordCount) (w : List Nat) :
    find_word_m (L.map Node.of) w = some (find_word L w) := by
  induction L with
  | nil => rfl
  | cons x L ih =>
    simp only [List.map_cons, find_word_m, find_word, Node.of, ih]
    by_cases h : strcmp x.word w != 0
    · simp only [h, if_true, Option.map_some']
    · simp only [h]
      rfl

theorem modify_map_of (L : List WordCount) (i : Nat) :
    (L.map Node.of).modify (fun node => { node with count := node.count + 1 }) i
      = (L.modify (fun node => { node with count := node.count + 1 }) i).map Node.of := by
  induction L generalizing i with
  | nil => simp
  | cons x L ih =>
    cases i with
    | zero => simp [Node.of]
    | succ i => simp [ih]

theorem add_word_m_of (L : List WordCount) (w : List Nat) :
    add_word_m true true (some (L.map Node.of)) w
      = some ((add_word L w).1, (add_word L w).2.map Node.of,
          if (find_word L w).isSome then 0 else 2) := by
  unfold add_word_m add_word
  simp only [find_word_m_of]
  cases find_word L w with
  | none => simp [create_word_m, create_word, new_string_m, new_string, Node.of]
  | some i => simp [modify_map_of]

theorem emit_word_m_of (t : Tokenizer) (n : Nat) (hf : t.fault = false) :
    ∃ n1, emit_word_m (fun _ => true) (Machine.of t n)
      = if (emit_word t).fault then none else some (Machine.of (emit_word t) n1) := by
  refine ⟨n + (if (find_word t.wclist (c_string t.buffer)).isSome then 0 else 2), ?_⟩
  by_cases hb : store_in_bounds t = true
  · have hbm : store_in_bounds_m (Machine.of t n) t.buffer = true := by
      simpa [store_in_bounds_m, store_in_bounds, Machine.of] using hb
    simp only [emit_word_m, emit_word, hb, if_true, hf, Bool.false_eq_true, if_false]
    simp only [Machine.of] at hbm ⊢
    simp [hbm, add_word_m_of]
  · have hbm : store_in_bounds_m (Machine.of t n) t.buffer = false := by
      simpa [store_in_bounds_m, store_in_bounds, Machine.of] using hb
    simp only [emit_word_m, emit_word, hb, if_true, Bool.false_eq_true, if_false]
    simp only [Machine.of] at hbm ⊢
    simp [hbm]

theorem count_words_step_m_of (t : Tokenizer) (n : Nat) (c : Nat) (hf : t.fault = false) :
    ∃ n1, count_words_step_m (fun _ => true) (Machine.of t n) c
      = if (count_words_step t c).fault then none
        else some (Machine.of (count_words_step t c) n1) := by
  cases t with
  | mk wclist buffer_size buffer prev_c stores fault =>
    simp only at hf
    subst hf
    by_cases hc : is_word_terminator c = true
    · have hch : is_word_character c = false := by simp [is_word_character_eq, hc]
      by_cases hp : is_word_character prev_c = true
      · by_cases hg : buffer.length ≥ buffer_size
        · refine ⟨n + 1 + (if (find_word wclist (c_string buffer)).isSome then 0 else 2), ?_⟩
          by_cases hb : buffer.length < buffer_size * 2 ∧ buffer.length < 2147483648
          · simp [count_words_step_m, count_words_step, grow_buffer_m,
              Machine.buffer_write_idx, Machine.of, hc, hch, hp, hg, hb, emit_word,
              emit_word_m, store_in_bounds, store_in_bounds_m, add_word_m_of]
          · simp [count_words_step_m, count_words_step, grow_buffer_m,
              Machine.buffer_write_idx, Machine.of, hc, hch, hp, hg, hb, emit_word,
              emit_word_m, store_in_bounds, store_in_bounds_m, add_word_m_of]
        · refine ⟨n + (if (find_word wclist (c_string buffer)).isSome then 0 else 2), ?_⟩
          by_cases hb : buffer.length < buffer_size ∧ buffer.length < 2147483648
          · simp [count_words_step_m, count_words_step, grow_buffer_m,
              Machine.buffer_write_idx, Machine.of, hc, hch, hp, hg, hb, emit_word,
              emit_word_m, store_in_bounds, store_in_bounds_m, add_word_m_of]
          · simp [count_words_step_m, count_words_step, grow_buffer_m,
              Machine.buffer_write_idx, Machine.of, hc, hch, hp, hg, hb, emit_word,
              emit_word_m, store_in_bounds, store_in_bounds_m, add_word_m_of]
      · by_cases hg : buffer.length ≥ buffer_size
        · exact ⟨n + 1, by
            simp [count_words_step_m, count_words_step, grow_buffer_m,
              Machine.buffer_write_idx, Machine.of, hc, hch, hp, hg]⟩
        · exact ⟨n, by
            simp [count_words_step_m, count_words_step, grow_buffer_m,
              Machine.buffer_write_idx, Machine.of, hc, hch, hp, hg]⟩
    · have hc1 : is_word_terminator c = false := by simpa using hc
      have hch : is_word_character c = true := by simp [is_word_character_eq, hc1]
      by_cases hg : buffer.length ≥ buffer_size
      · refine ⟨n + 1, ?_⟩
        by_cases hb : buffer.length < buffer_size * 2 ∧ buffer.length < 2147483648
        · simp [count_words_step_m, count_words_step, grow_buffer_m, store_char,
            store_in_bounds, store_in_bounds_m,
            Machine.buffer_write_idx, Machine.of, hc1, hch, hg, hb]
        · simp [count_words_step_m, count_words_step, grow_buffer_m, store_char,
            store_in_bounds, store_in_bounds_m,
            Machine.buffer_write_idx, Machine.of, hc1, hch, hg, hb]
      · refine ⟨n, ?_⟩
        by_cases hb : buffer.length < buffer_size ∧ buffer.length < 2147483648
        · simp [count_words_step_m, count_words_step, grow_buffer_m, store_char,
            store_in_bounds, store_in_bounds_m,
            Machine.buffer_write_idx, Machine.of, hc1, hch, hg, hb]
        · simp [count_words_step_m, count_words_step, grow_buffer_m, store_char,
            store_in_bounds, store_in_bounds_m,
            Machine.buffer_write_idx, Machine.of, hc1, hch, hg, hb]

theorem count_words_loop_m_of (s : List Nat) :
    ∀ (t : Tokenizer) (n : Nat), t.fault = false →
      ∃ n1, count_words_loop_m (fun _ => true) s (Machine.of t n)
        = if (count_words_loop s t).fault then none
          else some (Machine.of (count_words_loop s t) n1) := by
  induction s with
  | nil => intro t n hf; exact ⟨n, by simp [count_words_loop_m, count_words_loop, hf]⟩
  | cons c rest ih =>
    intro t n hf
    obtain ⟨n1, h1⟩ := count_words_step_m_of t n c hf
    by_cases hs : (count_words_step t c).fault = true
    · refine ⟨n, ?_⟩
      simp only [hs, if_true] at h1
      simp [count_words_loop_m, count_words_loop, h1,
        count_words_loop_fault rest _ hs, hs]
    · have hs0 : (count_words_step t c).fault = false := by simpa using hs
      simp only [hs0, Bool.false_eq_true, if_false] at h1
      obtain ⟨n2, h2⟩ := ih (count_words_step t c) n1 hs0
      exact ⟨n2, by simp only [count_words_loop_m, count_words_loop, h1, h2]⟩

theorem count_words_m_of (L : List WordCount) (s : List Nat) :
    count_words_m (fun _ => true) (some (L.map Node.of)) (some s)
      = (count_words L (some s)).map (fun r => (r.1, some (r.2.map Node.of))) := by
  obtain ⟨n1, h1⟩ := count_words_loop_m_of s
    { wclist := L, buffer_size := 16, buffer := [], prev_c := SPACE, stores := [] } 1 rfl
  simp only [Machine.of] at h1
  simp only [count_words_m, if_true, h1, count_words, count_words_run, count_words_finish]
  by_cases hf : (count_words_loop s
      { wclist := L, buffer_size := 16, buffer := [], prev_c := SPACE, stores := [] }).fault
      = true
  · simp [hf]
  · have hf0 : (count_words_loop s
        { wclist := L, buffer_size := 16, buffer := [], prev_c := SPACE, stores := [] }).fault
        = false := by simpa using hf
    by_cases hp : is_word_character (count_words_loop s
        { wclist := L, buffer_size := 16, buffer := [], prev_c := SPACE, stores := [] }).prev_c
        = true
    · obtain ⟨n2, h2⟩ := emit_word_m_of (count_words_loop s
        { wclist := L, buffer_size := 16, buffer := [], prev_c := SPACE, stores := [] }) n1 hf0
      simp only [Machine.of] at h2
      by_cases hb : (emit_word (count_words_loop s
          { wclist := L, buffer_size := 16, buffer := [], prev_c := SPACE,
            stores := [] })).fault = true
      · simp [hf0, hp, h2, hb]
      · simp [hf0, hp, h2, hb]
    · simp [hf0, hp]

/-! ## Return codes under absent references and failing allocations -/

theorem add_word_m_code (ok_node ok_str : Bool) (wclist : Option (List Node))
    (word : List Nat) :
    add_word_m ok_node ok_str wclist word = none
    ∨ ∃ l n, add_word_m ok_node ok_str wclist word = some (0, l, n) := by
  unfold add_word_m
  cases wclist with
  | none => exact Or.inl rfl
  | some l =>
    simp only
    cases find_word_m l word with
    | none => exact Or.inl rfl
    | some r =>
      cases r with
      | some i => exact Or.inr ⟨_, _, rfl⟩
      | none =>
        cases ok_node with
        | false => exact Or.inl rfl
        | true => exact Or.inr ⟨_, _, rfl⟩

theorem count_words_m_code (alloc : Nat → Bool) (wclist : Option (List Node))
    (s : List Nat) :
    count_words_m alloc wclist (some s) = none
    ∨ ∃ l, count_words_m alloc wclist (some s) = some (0, l) := by
  unfold count_words_m
  simp only
  cases count_words_loop_m alloc s
      { wclist := wclist, buffer_size := 16, buffer := if alloc 0 then some [] else none,
        prev_c := SPACE, allocs := 1 } with
  | none => exact Or.inl rfl
  | some t =>
    simp only
    split
    · cases emit_word_m alloc t with
      | none => exact Or.inl rfl
      | some t1 => exact Or.inr ⟨_, rfl⟩
    · exact Or.inr ⟨_, rfl⟩

/-! ## Words that `count_words` passes to `add_word` -/

theorem tokens_ne_nil (s : List Nat) : ∀ t ∈ tokens s, t ≠ [] := by
  intro t ht
  have := (List.mem_filter.1 ht).2
  intro h
  rw [h] at this
  simp at this

theorem tokens_whitespace (s : List Nat) (hs : ∀ c ∈ s, c = 32 ∨ c = 10) : tokens s = [] := by
  induction s with
  | nil => exact tokens_nil
  | cons c s ih =>
    have hc : is_word_terminator c = true := by
      rcases hs c (List.mem_cons_self _ _) with h | h <;> simp [h, is_word_terminator_eq]
    have := tokens_run_sep [] c s (by simp) hc
    simp only [List.nil_append, if_true] at this
    rw [this]
    exact ih (fun x hx => hs x (List.mem_cons_of_mem _ hx))

theorem c_string_ne_nil (t : List Nat) (ht : t ≠ []) (h0 : t.head? ≠ some 0) :
    c_string t ≠ [] := by
  cases t with
  | nil => exact absurd rfl ht
  | cons b t =>
    have hb : b ≠ 0 := by
      intro hb
      apply h0
      simp [hb]
    simp [c_string, STRING_TERMINATOR, List.takeWhile_cons, hb]

/-! ## The paths that `main` opens -/

theorem file_loop_opened (fopen : List Nat → Option (List Nat)) (count_mode : Bool)
    (paths : List (List Nat)) :
    ∀ st : Inputs, file_loop fopen count_mode paths st = none
      ∨ (file_loop fopen count_mode paths st).map (fun r => r.opened)
          = some (st.opened ++ paths) := by
  induction paths with
  | nil => intro st; exact Or.inr (by simp [file_loop])
  | cons path rest ih =>
    intro st
    simp only [file_loop]
    cases fopen path with
    | none =>
      simp only
      rcases ih { st with opened := st.opened ++ [path],
                           stdout := st.stdout ++ cannot_open_line path } with h | h
      · exact Or.inl h
      · exact Or.inr (by rw [h]; simp)
    | some f =>
      simp only
      cases count_mode with
      | true =>
        simp only [if_true]
        rcases ih { st with opened := st.opened ++ [path],
                             total_words := wrap_int (st.total_words + num_words f) } with h | h
        · exact Or.inl h
        · exact Or.inr (by rw [h]; simp)
      | false =>
        simp only [Bool.false_eq_true, if_false]
        cases count_words st.word_counts (some f) with
        | none => exact Or.inl rfl
        | some r =>
          simp only
          split
          · rcases ih { st with opened := st.opened ++ [path], word_counts := r.2,
                                 stdout := st.stdout ++ ascii "count_words: failed\n" }
              with h | h
            · exact Or.inl h
            · exact Or.inr (by rw [h]; simp)
          · rcases ih { st with opened := st.opened ++ [path], word_counts := r.2 } with h | h
            · exact Or.inl h
            · exact Or.inr (by rw [h]; simp)

theorem file_loop_count_opened (fopen : List Nat → Option (List Nat))
    (paths : List (List Nat)) :
    ∀ st : Inputs, (file_loop fopen true paths st).map (fun r => r.opened)
        = some (st.opened ++ paths) := by
  induction paths with
  | nil => intro st; simp [file_loop]
  | cons path rest ih =>
    intro st
    simp only [file_loop]
    cases fopen path with
    | none => simp only; rw [ih]; simp
    | some f => simp only [if_true]; rw [ih]; simp

/-! ## Streams on which `count_words` stores outside the buffer, and streams of many words -/

theorem lt_sixteen_ne (n : Nat) (h : n < 16) : ∀ k, n ≠ 16 * 2 ^ k := by
  intro k hk
  have : 0 < 2 ^ k := by positivity
  omega

theorem last_run_whitespace (s : List Nat) (hs : ∀ c ∈ s, c = 32 ∨ c = 10) :
    last_run s = [] := by
  unfold last_run
  induction s with
  | nil => rfl
  | cons c s ih =>
    have hc : (c == 32 || c == 10) = true := by
      rcases hs c (List.mem_cons_self _ _) with h | h <;> simp [h]
    simp only [List.foldl_cons, hc, if_true]
    exact ih (fun x hx => hs x (List.mem_cons_of_mem _ hx))

theorem count_words_loop_passed (s : List Nat) :
    ∀ t : Tokenizer,
      (∀ x ∈ t.buffer, is_word_terminator x = false) →
      (is_word_character t.prev_c = true ↔ t.buffer ≠ []) →
      ∃ ws, ws <+: (tokens (t.buffer ++ s)).map c_string
        ∧ (count_words_finish (count_words_loop s t)).wclist = add_words t.wclist ws := by
  induction s with
  | nil =>
    intro t hbuf hprev
    simp only [count_words_loop, List.append_nil, tokens_run t.buffer hbuf]
    by_cases hf : t.fault = true
    · exact ⟨[], List.nil_prefix, by simp [count_words_finish, hf, add_words]⟩
    · have hf0 : t.fault = false := by simpa using hf
      by_cases hc : t.buffer = []
      · have : ¬ is_word_character t.prev_c = true := fun h => (hprev.1 h) hc
        exact ⟨[], List.nil_prefix, by simp [count_words_finish, hf0, this, add_words]⟩
      · have hp : is_word_character t.prev_c = true := hprev.2 hc
        by_cases hb : store_in_bounds t = true
        · refine ⟨[c_string t.buffer], by simp [hc], ?_⟩
          simp [count_words_finish, hf0, hp, emit_word, hb, add_words]
        · exact ⟨[], List.nil_prefix, by
            simp [count_words_finish, hf0, hp, emit_word, hb, add_words]⟩
  | cons c rest ih =>
    intro t hbuf hprev
    simp only [count_words_loop]
    by_cases hf : t.fault = true
    · rw [count_words_step_fault t c hf, count_words_loop_fault rest t hf]
      exact ⟨[], List.nil_prefix, by simp [count_words_finish, hf, add_words]⟩
    · have hf0 : t.fault = false := by simpa using hf
      by_cases hc : is_word_terminator c = true
      · have hch : is_word_character c = false := by simp [is_word_character_eq, hc]
        have hs := count_words_step_sep t c hf0 hc
        rw [tokens_run_sep t.buffer c rest hbuf hc]
        by_cases hcur0 : t.buffer = []
        · have hp : ¬ is_word_character t.prev_c = true := fun h => (hprev.1 h) hcur0
          simp only [hp, if_false] at hs
          obtain ⟨ws, hws, hw⟩ := ih (count_words_step t c) (by simp [hs, hcur0])
            (by simp [hs, hcur0, hch])
          refine ⟨ws, ?_, ?_⟩
          · simpa [hs, hcur0] using hws
          · rw [hw, hs]
            simp
        · have hp : is_word_character t.prev_c = true := hprev.2 hcur0
          simp only [hp, if_true] at hs
          by_cases hb : t.buffer.length
              < (if t.buffer.length ≥ t.buffer_size then t.buffer_size * 2 else t.buffer_size)
              ∧ t.buffer.length < 2147483648
          · rw [if_pos hb] at hs
            obtain ⟨ws, hws, hw⟩ := ih (count_words_step t c) (by simp [hs])
              (by simp [hs, hch])
            refine ⟨c_string t.buffer :: ws, ?_, ?_⟩
            · simp only [hcur0, if_false, List.map_cons]
              rw [List.cons_prefix_cons]
              exact ⟨rfl, by simpa [hs] using hws⟩
            · rw [hw, hs]
              simp [add_words]
          · rw [if_neg hb] at hs
            have hfault : (count_words_step t c).fault = true := by rw [hs]
            rw [count_words_loop_fault rest _ hfault]
            refine ⟨[], List.nil_prefix, ?_⟩
            simp only [count_words_finish, hfault, if_true]
            rw [hs]
            simp [add_words]
      · have hc1 : is_word_terminator c = false := by simpa using hc
        have hch : is_word_character c = true := by simp [is_word_character_eq, hc1]
        have hs := count_words_step_word t c hf0 hc1
        by_cases hb : t.buffer.length
            < (if t.buffer.length ≥ t.buffer_size then t.buffer_size * 2 else t.buffer_size)
            ∧ t.buffer.length < 2147483648
        · rw [if_pos hb] at hs
          obtain ⟨ws, hws, hw⟩ := ih (count_words_step t c)
            (by
              rw [hs]
              intro x hx
              rcases List.mem_append.1 hx with hx | hx
              · exact hbuf x hx
              · simp at hx; rw [hx]; exact hc1)
            (by simp [hs, hch])
          refine ⟨ws, ?_, ?_⟩
          · simpa [hs] using hws
          · rw [hw, hs]
        · rw [if_neg hb] at hs
          have hfault : (count_words_step t c).fault = true := by rw [hs]
          rw [count_words_loop_fault rest _ hfault]
          refine ⟨[], List.nil_prefix, ?_⟩
          simp only [count_words_finish, hfault, if_true]
          rw [hs]
          simp [add_words]

theorem count_words_run_passed (L : List WordCount) (s : List Nat) :
    ∃ ws, ws <+: (tokens s).map c_string ∧ (count_words_run L s).wclist = add_words L ws := by
  have h := count_words_loop_passed s
    { wclist := L, buffer_size := 16, buffer := [], prev_c := SPACE, stores := [] }
    (by simp) (by simp [is_word_character, SPACE])
  simpa [count_words_run] using h

theorem tokens_replicate_words (n : Nat) :
    tokens (List.replicate n [97, 32]).flatten = List.replicate n [97] := by
  induction n with
  | zero => simpa using tokens_nil
  | succ n ih =>
    have h := tokens_run_sep [97] 32 (List.replicate n [97, 32]).flatten (by decide) (by decide)
    simp only [List.singleton_append] at h
    rw [List.replicate_succ, List.flatten_cons]
    simp only [List.cons_append, List.nil_append]
    rw [h, ih]
    simp [List.replicate_succ]

theorem num_words_overflow :
    num_words (List.replicate 2147483648 [97, 32]).flatten = -2147483648 := by
  rw [num_words_eq, tokens_replicate_words, List.length_replicate]
  simp [wrap_int]

theorem main_opened_of_loop (count_mode : Bool) (files : List (List Nat))
    (r : Option Inputs) (h : r.map (fun x : Inputs => x.opened) = some files) :
    (match r with
      | none => (none : Option Run)
      | some st =>
        if count_mode then
          some { status := 0, stdout := st.stdout ++ total_line st.total_words,
                 opened := st.opened, word_counts := st.word_counts }
        else
          match wordcount_sort st.word_counts (wordcount_less false) with
          | none => none
          | some l =>
            some { status := 0, stdout := st.stdout ++ frequency_header ++ fprint_words l,
                   opened := st.opened, word_counts := l }).map (fun x : Run => x.opened)
      = some files := by
  cases r with
  | none => simp at h
  | some st1 =>
    simp only [Option.map_some', Option.some.injEq] at h
    cases count_mode with
    | true => simp [h]
    | false =>
      obtain ⟨l1, h1, _⟩ := sort_passes_perm (wordcount_less false)
        st1.word_counts.length st1.word_counts (le_refl _)
      simp [wordcount_sort, len_words_eq_length, h1, h]

/-! ## The claims -/

/-- C1. `add_word` returns 0 and yields exactly this ledger: if some entry has the
word `w`, the first such entry has its count increased by 1 and every other entry and
the order of all entries are unchanged; if no entry has the word `w`, the result is
the new entry `(w, 1)` in front of the unchanged ledger. -/
theorem add_word_spec (L : List WordCount) (w : List Nat) :
    (add_word L w).1 = 0 ∧
    ((∃ pre e post, L = pre ++ e :: post ∧ (∀ x ∈ pre, x.word ≠ w) ∧ e.word = w
        ∧ (add_word L w).2 = pre ++ { word := w, count := e.count + 1 } :: post)
      ∨ ((∀ x ∈ L, x.word ≠ w) ∧ (add_word L w).2 = { word := w, count := 1 } :: L)) := by
  by_cases h : ∃ e ∈ L, e.word = w
  · obtain ⟨pre, e, post, hl, hpre, he⟩ := exists_first_match L w h
    have := add_word_found pre e post w hpre he
    rw [← hl, he] at this
    exact ⟨by rw [this], Or.inl ⟨pre, e, post, hl, hpre, he, by rw [this]⟩⟩
  · have h1 : ∀ x ∈ L, x.word ≠ w := fun x hx hw => h ⟨x, hx, hw⟩
    have := add_word_absent L w h1
    exact ⟨by rw [this], Or.inr ⟨h1, by rw [this]⟩⟩

/-- C3, as amended. For every stream with fewer than 2^31 words, `num_words` equals the
number of non-empty pieces of the stream split on space and newline; a final word not
followed by whitespace is counted; the empty stream and the streams made only of spaces
and newlines give 0; `the quick fox the` gives 4 and three spaces, two newlines and two
spaces give 0. -/
theorem num_words_spec :
    (∀ s, (tokens s).length < 2147483648 → num_words s = ((tokens s).length : Int))
    ∧ (∀ s w, w ≠ [] → (∀ c ∈ w, c ≠ 32 ∧ c ≠ 10) → (tokens s).length + 1 < 2147483648 →
        num_words (s ++ 32 :: w) = num_words s + 1 ∧ num_words w = 1)
    ∧ num_words [] = 0
    ∧ (∀ s, (∀ c ∈ s, c = 32 ∨ c = 10) → num_words s = 0)
    ∧ num_words (bytes ['t', 'h', 'e', ' ', 'q', 'u', 'i', 'c', 'k', ' ', 'f', 'o', 'x', ' ',
        't', 'h', 'e']) = 4
    ∧ num_words (bytes [' ', ' ', ' ', '\n', '\n', ' ', ' ']) = 0 := by
  refine ⟨num_words_eq_length, ?_, by decide, ?_, by decide, by decide⟩
  · intro s w hw hcs hn
    have hrun : ∀ x ∈ w, is_word_terminator x = false := by
      intro x hx
      have := hcs x hx
      simp [is_word_terminator, SPACE, NEW_LINE, this.1, this.2]
    have htw : tokens w = [w] := by simp [tokens_run w hrun, hw]
    have hsep : is_word_terminator 32 = true := by decide
    have hsw : tokens (s ++ 32 :: w) = tokens s ++ [w] := by
      rw [tokens_append_sep 32 hsep, htw]
    constructor
    · rw [num_words_eq_length (s ++ 32 :: w) (by rw [hsw]; simpa using hn),
        num_words_eq_length s (by omega), hsw]
      simp
    · rw [num_words_eq_length w (by rw [htw]; simp), htw]
      simp
  · intro s hs
    rw [num_words_eq_length s (by rw [tokens_whitespace s hs]; simp), tokens_whitespace s hs]
    simp

/-- Witness for C3: the clauses with a hypothesis, at the stream `a b` (an unterminated
final word) and at a stream of one space and one newline. -/
theorem num_words_spec_witness :
    ((tokens (bytes ['a', ' ', 'b'])).length < 2147483648
      ∧ num_words (bytes ['a', ' ', 'b']) = ((tokens (bytes ['a', ' ', 'b'])).length : Int))
    ∧ (num_words (bytes ['a'] ++ 32 :: bytes ['b']) = num_words (bytes ['a']) + 1
      ∧ num_words (bytes ['b']) = 1)
    ∧ num_words [32, 10] = 0 :=
  ⟨⟨by decide, num_words_spec.1 (bytes ['a', ' ', 'b']) (by decide)⟩,
    num_words_spec.2.1 (bytes ['a']) (bytes ['b']) (by decide) (by decide) (by decide),
    num_words_spec.2.2.2.1 [32, 10] (by decide)⟩

/-- Counterexample for C3 as stated: the stream of 2^31 words `a`, each followed by a
space, has 2^31 maximal runs of bytes other than space and newline, and `num_words`,
which counts in an `int`, gives -2^31 on it. -/
theorem num_words_overflow_counterexample :
    (tokens (List.replicate 2147483648 [97, 32]).flatten).length = 2147483648
    ∧ num_words (List.replicate 2147483648 [97, 32]).flatten = -2147483648
    ∧ num_words (List.replicate 2147483648 [97, 32]).flatten
        ≠ ((tokens (List.replicate 2147483648 [97, 32]).flatten).length : Int) := by
  have h1 : (tokens (List.replicate 2147483648 [97, 32]).flatten).length = 2147483648 := by
    rw [tokens_replicate_words, List.length_replicate]
  refine ⟨h1, num_words_overflow, ?_⟩
  rw [num_words_overflow, h1]
  norm_num

/-- C5. For any comparator, `wordcount_sort` returns and only reorders: the result is
a permutation of the original entries, `len_words` is unchanged, and the words are
pairwise distinct afterwards exactly when they were before. -/
theorem wordcount_sort_perm (wclist : List WordCount)
    (less : WordCount → WordCount → Bool) :
    ∃ l1, wordcount_sort wclist less = some l1 ∧ l1.Perm wclist
      ∧ len_words l1 = len_words wclist
      ∧ ((l1.map (fun e => e.word)).Nodup ↔ (wclist.map (fun e => e.word)).Nodup) := by
  obtain ⟨l1, h1, hp⟩ := sort_passes_perm less wclist.length wclist (le_refl _)
  refine ⟨l1, by simpa [wordcount_sort, len_words_eq_length] using h1, hp, ?_, ?_⟩
  · simp [len_words_eq_length, hp.length_eq]
  · exact (hp.map _).nodup_iff

/-- C6, the frequency report. On the stream of 16 bytes `a`, `count_words` stores the
terminator at index 16 of its 16-byte buffer and there is no defined report; with a
newline after the 16 bytes the report is the one line for that word.  For every stream
without a NUL byte in which every word has fewer than 2^31 bytes and whose last word,
when no space or newline follows it, does not have exactly 16, 32, 64, ... bytes,
`count_words` from the empty ledger, then `wordcount_sort` with `wordcount_less`, then
`fprint_words` writes the lines `<count><TAB><word><newline>` of a list `E` of entries
that holds each distinct token of the stream once, with its number of occurrences as
count, in ascending order of count and, among equal counts, of word (byte-wise
lexicographic); for `the quick fox the` the output is the three lines `1 fox`,
`1 quick`, `2 the`, and for the empty stream nothing is written. -/
theorem frequency_report_spec :
    frequency_report (List.replicate 16 97) = none
    ∧ frequency_report (List.replicate 16 97 ++ [10])
        = some ([49, 9] ++ List.replicate 16 97 ++ [10])
    ∧ (∀ s : List Nat, (∀ b ∈ s, b ≠ 0) → (∀ t ∈ tokens s, t.length < 2147483648) →
      (∀ k, (last_run s).length ≠ 16 * 2 ^ k) →
      ∃ E : List WordCount,
        frequency_report s = some ((E.map report_line).flatten)
        ∧ E.Perm ((tokens s).dedup.map
            (fun w => ({ word := w, count := ((tokens s).count w : Int) } : WordCount)))
        ∧ E.Pairwise report_order)
    ∧ frequency_report (bytes ['t', 'h', 'e', ' ', 'q', 'u', 'i', 'c', 'k', ' ', 'f', 'o', 'x',
        ' ', 't', 'h', 'e'])
      = some (bytes ['1', '\t', 'f', 'o', 'x', '\n', '1', '\t', 'q', 'u', 'i', 'c', 'k', '\n',
          '2', '\t', 't', 'h', 'e', '\n'])
    ∧ frequency_report [] = some [] :=
  ⟨by decide, by decide, frequency_report_eq, by decide, by decide⟩

/-- Witness for C6: the general clause at the stream `b a b`. -/
theorem frequency_report_spec_witness :
    (∀ b ∈ bytes ['b', ' ', 'a', ' ', 'b'], b ≠ 0)
    ∧ (∀ t ∈ tokens (bytes ['b', ' ', 'a', ' ', 'b']), t.length < 2147483648)
    ∧ (∀ k, (last_run (bytes ['b', ' ', 'a', ' ', 'b'])).length ≠ 16 * 2 ^ k)
    ∧ ∃ E : List WordCount,
        frequency_report (bytes ['b', ' ', 'a', ' ', 'b']) = some ((E.map report_line).flatten)
        ∧ E.Perm ((tokens (bytes ['b', ' ', 'a', ' ', 'b'])).dedup.map
            (fun w => ({ word := w,
                         count := ((tokens (bytes ['b', ' ', 'a', ' ', 'b'])).count w : Int) }
              : WordCount)))
        ∧ E.Pairwise report_order :=
  ⟨by decide, by decide, lt_sixteen_ne _ (by decide),
    frequency_report_spec.2.2.1 (bytes ['b', ' ', 'a', ' ', 'b']) (by decide) (by decide)
      (lt_sixteen_ne _ (by decide))⟩

/-- C7. `wordcount_less(A, B)` is true exactly when `A.count < B.count`, or the counts
are equal and `A.word` is strictly below `B.word` in byte-wise lexicographic order;
`wordcount_less(A, A)` is false, with the pointer test and without it. -/
theorem wordcount_less_spec (A B : WordCount) :
    (wordcount_less false A B = true ↔
      (A.count < B.count ∨
        (A.count = B.count ∧ List.Lex (fun x y : Nat => x < y) A.word B.word)))
    ∧ wordcount_less true A A = false
    ∧ wordcount_less true A A = wordcount_less false A A := by
  refine ⟨wordcount_less_iff A B, by simp [wordcount_less], ?_⟩
  have h : ¬ (wordcount_less false A A = true) := by
    rw [wordcount_less_iff]
    rintro (h | ⟨_, h⟩)
    · exact lt_irrefl _ h
    · exact lex_irrefl _ h
  simpa [wordcount_less] using h

/-- C8. Every ledger reachable from the empty ledger of `init_words` through calls of
`add_word`, `count_words` and `wordcount_sort` (with any comparator) has pairwise
distinct words, and every entry of it has a count of at least 1. -/
theorem reachable_spec (L : List WordCount) (h : Reachable L) :
    (L.map (fun e => e.word)).Nodup ∧ ∀ e ∈ L, 1 ≤ e.count :=
  reachable_inv L h

/-- Witness for C8: the ledger reached by `count_words` on `b a b`, then `add_word` of
`a`, then `wordcount_sort` by count alone. -/
theorem reachable_spec_witness :
    Reachable [⟨bytes ['b'], 2⟩, ⟨bytes ['a'], 2⟩]
    ∧ ((([⟨bytes ['b'], 2⟩, ⟨bytes ['a'], 2⟩] : List WordCount).map (fun e => e.word)).Nodup
      ∧ ∀ e ∈ ([⟨bytes ['b'], 2⟩, ⟨bytes ['a'], 2⟩] : List WordCount), 1 ≤ e.count) :=
  have hr : Reachable [⟨bytes ['b'], 2⟩, ⟨bytes ['a'], 2⟩] :=
    Reachable.wordcount_sort
      (add_word [⟨bytes ['a'], 1⟩, ⟨bytes ['b'], 2⟩] (bytes ['a'])).2
      count_less _
      (Reachable.add_word _ _
        (Reachable.count_words init_words.2 (some (bytes ['b', ' ', 'a', ' ', 'b'])) 0
          [⟨bytes ['a'], 1⟩, ⟨bytes ['b'], 2⟩] Reachable.init (by decide)))
      (by decide)
  ⟨hr, reachable_spec _ hr⟩

/-- C9. Starting from a ledger without the word `w`, after `n >= 1` successive calls of
`add_word` with `w`, `find_word` returns an entry for `w` whose count is exactly `n`, and
`len_words` is `len_words L + 1`, after the first call and after each later one. -/
theorem add_word_n_spec (L : List WordCount) (w : List Nat) (n : Nat)
    (hw : ∀ x ∈ L, x.word ≠ w) (hn : 1 ≤ n) :
    ∃ i node, find_word (add_word_n L w n) w = some i
      ∧ (add_word_n L w n).get? i = some node
      ∧ node.word = w ∧ node.count = n
      ∧ len_words (add_word_n L w n) = len_words L + 1 := by
  obtain ⟨k, rfl⟩ : ∃ k, n = k + 1 := ⟨n - 1, by omega⟩
  rw [add_word_n_absent L w hw k]
  refine ⟨0, { word := w, count := (k : Int) + 1 }, ?_, by simp, rfl, by simp, ?_⟩
  · simp [find_word, strcmp_eq_zero_iff]
  · simp [len_words_eq_length]

/-- Witness for C9: three calls with the word `fox` on a ledger that holds `the`. -/
theorem add_word_n_spec_witness :
    (∀ x ∈ [(⟨bytes ['t', 'h', 'e'], 2⟩ : WordCount)], x.word ≠ bytes ['f', 'o', 'x'])
    ∧ 1 ≤ 3
    ∧ ∃ i node, find_word (add_word_n [⟨bytes ['t', 'h', 'e'], 2⟩] (bytes ['f', 'o', 'x']) 3)
          (bytes ['f', 'o', 'x']) = some i
      ∧ (add_word_n [⟨bytes ['t', 'h', 'e'], 2⟩] (bytes ['f', 'o', 'x']) 3).get? i = some node
      ∧ node.word = bytes ['f', 'o', 'x'] ∧ node.count = (3 : Nat)
      ∧ len_words (add_word_n [⟨bytes ['t', 'h', 'e'], 2⟩] (bytes ['f', 'o', 'x']) 3)
          = len_words [(⟨bytes ['t', 'h', 'e'], 2⟩ : WordCount)] + 1 :=
  ⟨by decide, by decide,
    add_word_n_spec [⟨bytes ['t', 'h', 'e'], 2⟩] (bytes ['f', 'o', 'x']) 3
      (by decide) (by decide)⟩

/-- C10. `find_word` returns the first entry of the ledger whose word equals `w` byte
for byte when there is one (the entry `e` at position `pre.length`), and returns
not-found otherwise; it returns not-found exactly when no entry has the word `w`.
It only reads the ledger: its result is a position, there is no store. -/
theorem find_word_spec (L : List WordCount) (w : List Nat) :
    ((∃ pre e post, L = pre ++ e :: post ∧ (∀ x ∈ pre, x.word ≠ w) ∧ e.word = w
        ∧ find_word L w = some pre.length ∧ L.get? pre.length = some e)
      ∨ ((∀ e ∈ L, e.word ≠ w) ∧ find_word L w = none))
    ∧ (find_word L w = none ↔ ∀ e ∈ L, e.word ≠ w) := by
  refine ⟨?_, find_word_eq_none_iff L w⟩
  by_cases h : ∃ e ∈ L, e.word = w
  · obtain ⟨pre, e, post, hl, hpre, he⟩ := exists_first_match L w h
    refine Or.inl ⟨pre, e, post, hl, hpre, he, ?_, ?_⟩
    · rw [hl]; exact find_word_split pre e post w hpre he
    · rw [hl]; exact get_split pre e post
  · have h1 : ∀ x ∈ L, x.word ≠ w := fun x hx hw => h ⟨x, hx, hw⟩
    exact Or.inr ⟨h1, (find_word_eq_none_iff L w).2 h1⟩

/-- C11. The comparator `wordcount_less` on entries as (word, count) values is a strict
weak ordering: irreflexive, transitive, with a transitive incomparability relation; two
incomparable entries have the same count and the same word; and on a ledger with
pairwise distinct words exactly one of `less a b` and `less b a` holds for two
different entries `a` and `b` of it. -/
theorem wordcount_less_order_spec :
    StrictWeakOrdering (wordcount_less false)
    ∧ (∀ a b, wordcount_less false a b = false → wordcount_less false b a = false →
        a.count = b.count ∧ a.word = b.word)
    ∧ (∀ L : List WordCount, (L.map (fun e => e.word)).Nodup →
        ∀ a ∈ L, ∀ b ∈ L, a ≠ b →
          a.word ≠ b.word
          ∧ ((wordcount_less false a b = true ∧ wordcount_less false b a = false)
            ∨ (wordcount_less false a b = false ∧ wordcount_less false b a = true))) := by
  refine ⟨wordcount_less_swo, ?_, ?_⟩
  · intro a b h1 h2
    have := incomparable_eq a b h1 h2
    subst this
    exact ⟨rfl, rfl⟩
  · intro L hn a ha b hb hab
    refine ⟨?_, wordcount_less_total a b hab⟩
    intro hw
    have h1 := count_of_of_mem L hn a ha
    have h2 := count_of_of_mem L hn b hb
    rw [hw, h2] at h1
    apply hab
    cases a
    cases b
    simp only [WordCount.mk.injEq]
    exact ⟨hw, h1.symm⟩

/-- Witness for C11: two incomparable entries, and the two entries of a ledger that
holds `fox` and `the` once each. -/
theorem wordcount_less_order_spec_witness :
    ((⟨bytes ['a'], 1⟩ : WordCount).count = (⟨bytes ['a'], 1⟩ : WordCount).count
      ∧ (⟨bytes ['a'], 1⟩ : WordCount).word = (⟨bytes ['a'], 1⟩ : WordCount).word)
    ∧ ((⟨bytes ['t', 'h', 'e'], 1⟩ : WordCount).word ≠ (⟨bytes ['f', 'o', 'x'], 1⟩ : WordCount).word
      ∧ ((wordcount_less false ⟨bytes ['t', 'h', 'e'], 1⟩ ⟨bytes ['f', 'o', 'x'], 1⟩ = true
          ∧ wordcount_less false ⟨bytes ['f', 'o', 'x'], 1⟩ ⟨bytes ['t', 'h', 'e'], 1⟩ = false)
        ∨ (wordcount_less false ⟨bytes ['t', 'h', 'e'], 1⟩ ⟨bytes ['f', 'o', 'x'], 1⟩ = false
          ∧ wordcount_less false ⟨bytes ['f', 'o', 'x'], 1⟩ ⟨bytes ['t', 'h', 'e'], 1⟩ = true))) :=
  ⟨wordcount_less_order_spec.2.1 ⟨bytes ['a'], 1⟩ ⟨bytes ['a'], 1⟩ (by decide) (by decide),
    wordcount_less_order_spec.2.2 [⟨bytes ['t', 'h', 'e'], 1⟩, ⟨bytes ['f', 'o', 'x'], 1⟩]
      (by decide) ⟨bytes ['t', 'h', 'e'], 1⟩ (by decide) ⟨bytes ['f', 'o', 'x'], 1⟩ (by decide)
      (by decide)⟩

/-- C12. For every ledger, `fprint_words` writes exactly the concatenation, over the
entries in list order from the head, of the decimal rendering of the count, a TAB, the
word and a newline; nothing for the empty ledger.  The rendering of 12 is `12`, of 0 is
`0`, of 2024 is `2024`; a two-entry ledger is written as two lines.  The function only
reads the ledger: its result is the bytes written. -/
theorem fprint_words_spec (L : List WordCount) :
    fprint_words L
      = (L.map (fun e => print_int e.count ++ [9] ++ e.word ++ [10])).flatten
    ∧ fprint_words [] = []
    ∧ print_int 12 = bytes ['1', '2'] ∧ print_int 0 = bytes ['0']
    ∧ print_int 2024 = bytes ['2', '0', '2', '4']
    ∧ fprint_words [⟨bytes ['f', 'o', 'x'], 1⟩, ⟨bytes ['t', 'h', 'e'], 12⟩]
        = bytes ['1', '\t', 'f', 'o', 'x', '\n', '1', '2', '\t', 't', 'h', 'e', '\n'] := by
  refine ⟨?_, rfl, by decide, by decide, by decide, by decide⟩
  have h := fprint_words_eq L
  unfold report_line at h
  exact h

/-- C13, `count_words` on absent arguments. With a `NULL` stream it returns 1 and leaves
the ledger as it is, whatever the reference; with both arguments present and no
allocation failing it behaves as the first model, and returns 0 on every stream whose
words have fewer than 2^31 bytes and whose last word, when no space or newline follows
it, does not have exactly 16, 32, 64, ... bytes; on a present stream it never returns
1.  With a `NULL` reference `wclist` and a present stream it does not return 1: on the
stream `a` it faults in `add_word`, on the empty stream it returns 0. -/
theorem count_words_null_spec :
    (∀ (alloc : Nat → Bool) (wclist : Option (List Node)),
      count_words_m alloc wclist none = some (1, wclist))
    ∧ (∀ (L : List WordCount) (s : List Nat),
        count_words_m (fun _ => true) (some (L.map Node.of)) (some s)
          = (count_words L (some s)).map (fun r => (r.1, some (r.2.map Node.of))))
    ∧ (∀ (L : List WordCount) (s : List Nat),
        (∀ t ∈ tokens s, t.length < 2147483648) →
        (∀ k, (last_run s).length ≠ 16 * 2 ^ k) →
        count_words_m (fun _ => true) (some (L.map Node.of)) (some s)
          = some (0, some ((add_words L ((tokens s).map c_string)).map Node.of)))
    ∧ (∀ (alloc : Nat → Bool) (wclist : Option (List Node)) (s : List Nat),
        count_words_m alloc wclist (some s) = none
        ∨ ∃ l, count_words_m alloc wclist (some s) = some (0, l))
    ∧ count_words_m (fun _ => true) none (some (bytes ['a'])) = none
    ∧ count_words_m (fun _ => true) none (some []) = some (0, none) := by
  refine ⟨fun _ _ => rfl, count_words_m_of, ?_, count_words_m_code, by decide, by decide⟩
  intro L s hlen hlast
  rw [count_words_m_of, count_words_fits L s hlen hlast]
  rfl

/-- C14, as amended. For every stream in which no token begins with a NUL byte, the
words that `count_words` passes to `add_word`, up to its return or to the store outside
the buffer at which the run stops, are the words `c_string t` of the first tokens `t` of
the stream, in order, and each of them is non-empty, so that an entry with an empty word
is in the ledger then only if one was there before; and a stream made only of spaces and
newlines (the empty stream included) leaves the ledger unchanged. -/
theorem count_words_nonempty_words (L : List WordCount) (s : List Nat)
    (h : ∀ t ∈ tokens s, t.head? ≠ some 0) :
    (∃ ws, ws <+: (tokens s).map c_string ∧ (count_words_run L s).wclist = add_words L ws)
    ∧ (∀ code l1, count_words L (some s) = some (code, l1) →
        code = 0 ∧ l1 = (count_words_run L s).wclist
          ∧ l1 = add_words L ((tokens s).map c_string))
    ∧ (∀ w ∈ (tokens s).map c_string, w ≠ [])
    ∧ (∀ e ∈ (count_words_run L s).wclist, e.word = [] → ∃ e0 ∈ L, e0.word = [])
    ∧ ((∀ c ∈ s, c = 32 ∨ c = 10) → count_words L (some s) = some (0, L)) := by
  have hne : ∀ w ∈ (tokens s).map c_string, w ≠ [] := by
    intro w hw
    obtain ⟨t, ht, rfl⟩ := List.mem_map.1 hw
    exact c_string_ne_nil t (tokens_ne_nil s t ht) (h t ht)
  refine ⟨count_words_run_passed L s, ?_, hne, ?_, ?_⟩
  · intro code l1 hc
    obtain ⟨h1, h2⟩ := count_words_result L s code l1 hc
    refine ⟨h1, ?_, h2⟩
    simp only [count_words] at hc
    split at hc
    · cases hc
    · simp only [Option.some.injEq, Prod.mk.injEq] at hc
      exact hc.2.symm
  · intro e he hw
    obtain ⟨ws, hws, hrun⟩ := count_words_run_passed L s
    rw [hrun] at he
    have hmem : e.word ∈ (add_words L ws).map (fun e => e.word) :=
      List.mem_map.2 ⟨e, he, rfl⟩
    rw [mem_words_add_words] at hmem
    rcases hmem with hmem | hmem
    · obtain ⟨e0, he0, hw0⟩ := List.mem_map.1 hmem
      exact ⟨e0, he0, hw0.trans hw⟩
    · exact absurd hw (hne _ (hws.subset hmem))
  · intro hs
    have hfit := count_words_fits L s
      (by rw [tokens_whitespace s hs]; simp)
      (by rw [last_run_whitespace s hs]; exact lt_sixteen_ne 0 (by decide))
    rw [hfit, tokens_whitespace s hs]
    rfl

/-- Witness for C14: the stream `ab`, space, `c`. -/
theorem count_words_nonempty_words_witness :
    (∀ t ∈ tokens (bytes ['a', 'b', ' ', 'c']), t.head? ≠ some 0)
    ∧ (∀ e ∈ (count_words_run [] (bytes ['a', 'b', ' ', 'c'])).wclist, e.word = [] →
        ∃ e0 ∈ ([] : List WordCount), e0.word = []) :=
  ⟨by decide, (count_words_nonempty_words [] (bytes ['a', 'b', ' ', 'c']) (by decide)).2.2.2.1⟩

/-- Counterexample for C14 as stated: on the stream that is a single NUL byte,
`count_words` adds to the empty ledger an entry whose word is empty. -/
theorem count_words_empty_word_counterexample :
    count_words [] (some [0]) = some (0, [⟨[], 1⟩])
    ∧ ∃ e ∈ ([⟨[], 1⟩] : List WordCount), e.word.length = 0 := by
  decide

/-- C15, the frequency mode without positional arguments. With the single option `-f`
or `--frequency` and no path, whatever the standard input holds, `main` reads it with
`num_words` only: the ledger stays empty and the output is the header line alone.  For
the standard input `the quick fox the` the output is the header line, without the lines
for `fox`, `quick` and `the`. -/
theorem main_frequency_stdin_spec :
    (∀ (prog : List Nat) (fopen : List Nat → Option (List Nat)) (stdin : List Nat),
      main ⟨prog, [Flag.frequency_short], []⟩ fopen stdin
        = some { status := 0, stdout := frequency_header, opened := [], word_counts := [] })
    ∧ (∀ (prog : List Nat) (fopen : List Nat → Option (List Nat)) (stdin : List Nat),
      main ⟨prog, [Flag.frequency_long], []⟩ fopen stdin
        = some { status := 0, stdout := frequency_header, opened := [], word_counts := [] })
    ∧ (main ⟨ascii "words", [Flag.frequency_short], []⟩ (fun _ => none)
          (ascii "the quick fox the")).map (fun r => r.stdout)
        = some (ascii "The frequencies of each word are: \n")
    ∧ frequency_report (ascii "the quick fox the")
        = some (ascii "1\tfox\n1\tquick\n2\tthe\n") := by
  refine ⟨fun _ _ _ => rfl, fun _ _ _ => rfl, by decide, by decide⟩

/-- C16, the paths that `main` opens. The loop over the paths starts at `argv[2]`, not at
`argv[optind]`.  With exactly one option (`-c` or `-f` here) the paths opened are the
positional arguments, in order.  With no option and one path, nothing is opened and the
total printed is 0; with no option and two paths, only the second is opened; with the
two options `-c --frequency` and the path `a.txt`, the paths opened are `--frequency`
and `a.txt`.  A path that cannot be opened is reported and the later paths are still
processed (`-f a.txt nope b.txt`). -/
theorem main_opened_spec :
    (∀ (prog : List Nat) (files : List (List Nat)) (fopen : List Nat → Option (List Nat))
        (stdin : List Nat),
      (main ⟨prog, [Flag.count_short], files⟩ fopen stdin).map (fun r => r.opened)
        = some files)
    ∧ (∀ (prog : List Nat) (files : List (List Nat)) (fopen : List Nat → Option (List Nat))
        (stdin : List Nat),
      main ⟨prog, [Flag.frequency_short], files⟩ fopen stdin = none
      ∨ (main ⟨prog, [Flag.frequency_short], files⟩ fopen stdin).map (fun r => r.opened)
        = some files)
    ∧ (∀ (prog file : List Nat) (fopen : List Nat → Option (List Nat)) (stdin : List Nat),
      main ⟨prog, [], [file]⟩ fopen stdin
        = some { status := 0, stdout := total_line 0, opened := [], word_counts := [] })
    ∧ (∀ (prog file1 file2 : List Nat) (fopen : List Nat → Option (List Nat))
        (stdin : List Nat),
      (main ⟨prog, [], [file1, file2]⟩ fopen stdin).map (fun r => r.opened) = some [file2])
    ∧ (main ⟨ascii "words", [Flag.count_short, Flag.frequency_long], [ascii "a.txt"]⟩
          (fun p => if p = ascii "a.txt" then some (ascii "the quick fox the") else none)
          []).map (fun r => r.opened)
        = some [ascii "--frequency", ascii "a.txt"]
    ∧ (main ⟨ascii "words", [Flag.frequency_short], [ascii "a.txt", ascii "nope", ascii "b.txt"]⟩
          (fun p => if p = ascii "a.txt" then some (ascii "the quick fox the")
            else if p = ascii "b.txt" then some (ascii "b b") else none)
          []).map (fun r => (r.opened, r.stdout))
        = some ([ascii "a.txt", ascii "nope", ascii "b.txt"],
            ascii "file: 'nope' cannot be opened!\n"
            ++ ascii "The frequencies of each word are: \n"
            ++ ascii "1\tfox\n1\tquick\n2\tb\n2\tthe\n") := by
  refine ⟨?_, ?_, fun _ _ _ _ => rfl, ?_, by decide, by decide⟩
  · intro prog files fopen stdin
    cases files with
    | nil => rfl
    | cons f files =>
      have hcond : ¬ ((files.length : Int) + 1 + 1 + 1 - 2 < 1) := by omega
      have h := main_opened_of_loop true
        (f :: files) _ (file_loop_count_opened fopen (f :: files)
          { total_words := 0, word_counts := init_words.2, stdout := [], opened := [] })
      simpa [main, set_flags, Flag.code, CommandLine.argc, CommandLine.optind,
        CommandLine.argv, hcond] using h
  · intro prog files fopen stdin
    cases files with
    | nil => exact Or.inr rfl
    | cons f files =>
      have hcond : ¬ ((files.length : Int) + 1 + 1 + 1 - 2 < 1) := by omega
      rcases file_loop_opened fopen false (f :: files)
        { total_words := 0, word_counts := init_words.2, stdout := [], opened := [] }
        with hl | hl
      · left
        simp [main, set_flags, Flag.code, CommandLine.argc, CommandLine.optind,
          CommandLine.argv, hcond, hl]
      · right
        have h := main_opened_of_loop false
          (f :: files) _ hl
        simpa [main, set_flags, Flag.code, CommandLine.argc, CommandLine.optind,
          CommandLine.argv, hcond] using h
  · intro prog file1 file2 fopen stdin
    have h := main_opened_of_loop true
      [file2] _ (file_loop_count_opened fopen [file2]
        { total_words := 0, word_counts := init_words.2, stdout := [], opened := [] })
    simpa [main, set_flags, CommandLine.argc, CommandLine.optind,
      CommandLine.argv] using h

/-- C17, failing allocations. When the `malloc` of the node fails, `add_word` on an
absent word faults in `create_word`; when the `malloc` of the copy of the word fails,
it returns 0 and links a node with a `NULL` word; it never returns 1.  `count_words`
on a present stream never returns 1 either: when the first `allocate_buffer` fails it
faults on the stream `a` and returns 0 on the empty stream; when the node allocation of
its `add_word` call fails it faults; when the allocation of the word copy fails it
returns 0; when the allocation that grows the buffer fails it faults. -/
theorem allocation_failure_spec :
    (∀ (ok_str : Bool) (w : List Nat), add_word_m false ok_str (some []) w = none)
    ∧ (∀ w : List Nat,
        add_word_m true false (some []) w = some (0, [{ word := none, count := 1 }], 2))
    ∧ (∀ (ok_node ok_str : Bool) (wclist : Option (List Node)) (w : List Nat),
        add_word_m ok_node ok_str wclist w = none
        ∨ ∃ l n, add_word_m ok_node ok_str wclist w = some (0, l, n))
    ∧ (∀ (alloc : Nat → Bool) (wclist : Option (List Node)) (s : List Nat),
        count_words_m alloc wclist (some s) = none
        ∨ ∃ l, count_words_m alloc wclist (some s) = some (0, l))
    ∧ count_words_m (fun _ => false) (some []) (some (bytes ['a'])) = none
    ∧ count_words_m (fun _ => false) (some []) (some []) = some (0, some [])
    ∧ count_words_m (fun k => k != 1) (some []) (some (bytes ['a'])) = none
    ∧ count_words_m (fun k => k != 2) (some []) (some (bytes ['a']))
        = some (0, some [{ word := none, count := 1 }])
    ∧ count_words_m (fun k => k != 1) (some []) (some (List.replicate 17 97)) = none := by
  refine ⟨fun _ _ => rfl, fun _ => rfl, add_word_m_code, count_words_m_code,
    by decide, by decide, by decide, by decide, by decide⟩

/-- C18, the stores of `count_words` against the capacity. Every store made inside the
loop, of a word character or of the terminator, is at an index strictly below the
capacity at that time, and every store of a run is at an index at most the capacity.
The store of the terminator at end-of-stream can be at the capacity itself: for the
stream of 16 bytes `a` the last store is at index 16 of a 16-byte buffer, for 32 bytes
`a` at index 32 of a 32-byte buffer. -/
theorem count_words_stores_spec :
    (∀ (L : List WordCount) (s : List Nat),
      ∀ p ∈ (count_words_loop s
          { wclist := L, buffer_size := 16, buffer := [], prev_c := SPACE, stores := [] }).stores,
        p.1 < p.2)
    ∧ (∀ (L : List WordCount) (s : List Nat), ∀ p ∈ (count_words_run L s).stores, p.1 ≤ p.2)
    ∧ (count_words_run [] (List.replicate 16 97)).stores.getLast? = some (16, 16)
    ∧ (count_words_run [] (List.replicate 32 97)).stores.getLast? = some (32, 32)
    ∧ (count_words_run [] (List.replicate 16 97 ++ [32])).stores.getLast? = some (16, 32) := by
  refine ⟨?_, count_words_run_stores, by decide, by decide, by decide⟩
  intro L s
  exact (count_words_loop_stores s _ (by simp) (by simp) (by simp)).2

end Words
